import Mathlib

/-!
# Verification of the Leve Agents hybrid recommendation core

Shallow embedding, in Lean 4, of the parts of the `reco` subsystem and the
trail-output validator that the checked claims are about:

* `reco/indexer.py`   — lexical (TF-IDF) scorer and min-max score normalization
* `reco/ranker.py`    — business ranking: boosts, cap, threshold, dedup, top-N
* `reco/normalizer.py`— catalog dedup by `publicId` with completeness heuristic
* `reco/index/vector_index.py` — NumPy-backend vector index (upsert/search)
* `validators/trail_output_checks.py` — output business rules

Python floats are modeled as `ℚ` (the code only adds, compares, caps and
min-max-rescales scores, so exact rationals are a faithful carrier and make
every predicate decidable).  Python strings are Lean `String`s; `str.casefold`
is modeled by `String.toLower` and the NFKD accent strip by an explicit
character map covering the Latin accents used by the catalog's language
(both are the identity on plain ASCII, which is all the proofs depend on).
Raised exceptions are modeled with `Except`, carrying the state that was
current when the exception left the function.
-/

namespace Leve

/-- Model of Python `str.strip()` (drop leading and trailing whitespace). -/
def pyStrip (s : String) : String :=
  String.mk (((s.data.dropWhile Char.isWhitespace).reverse.dropWhile Char.isWhitespace).reverse)

/-- Model of `str.casefold()` / `str.lower()`; identical to them on ASCII text. -/
def caseFold (s : String) : String := String.mk (s.data.map Char.toLower)

/-- Model of `reco/ranker.py::_strip_accents` (NFKD strip): maps the Latin
accented letters that occur in the catalog's language to their base letter
and leaves every other character unchanged. -/
def stripAccentChar (c : Char) : Char :=
  if c ∈ ['á', 'à', 'â', 'ã', 'ä'] then 'a'
  else if c ∈ ['é', 'è', 'ê', 'ë'] then 'e'
  else if c ∈ ['í', 'ì', 'î', 'ï'] then 'i'
  else if c ∈ ['ó', 'ò', 'ô', 'õ', 'ö'] then 'o'
  else if c ∈ ['ú', 'ù', 'û', 'ü'] then 'u'
  else if c = 'ç' then 'c'
  else if c ∈ ['Á', 'À', 'Â', 'Ã', 'Ä'] then 'A'
  else if c ∈ ['É', 'È', 'Ê', 'Ë'] then 'E'
  else if c ∈ ['Í', 'Ì', 'Î', 'Ï'] then 'I'
  else if c ∈ ['Ó', 'Ò', 'Ô', 'Õ', 'Ö'] then 'O'
  else if c ∈ ['Ú', 'Ù', 'Û', 'Ü'] then 'U'
  else if c = 'Ç' then 'C'
  else c

/-- `_strip_accents`: per-character accent removal. -/
def stripAccents (s : String) : String := String.mk (s.data.map stripAccentChar)

/-- Word characters of the ranker's `_WORD_RE` regex `[a-zA-ZÀ-ÖØ-öø-ÿ0-9]+`. -/
def isWordChar (c : Char) : Bool :=
  (('a' ≤ c && c ≤ 'z') || ('A' ≤ c && c ≤ 'Z') || ('0' ≤ c && c ≤ '9')
    || (('À' : Char) ≤ c && c ≤ ('Ö' : Char))
    || (('Ø' : Char) ≤ c && c ≤ ('ö' : Char))
    || (('ø' : Char) ≤ c && c ≤ ('ÿ' : Char)))

/-- Maximal runs of word characters, as `re.finditer` of `_WORD_RE` yields. -/
def splitRuns : List Char → List (List Char)
  | [] => []
  | c :: cs =>
    let rest := splitRuns cs
    if isWordChar c then
      match cs with
      | c' :: _ =>
        if isWordChar c' then
          match rest with
          | r :: rs => (c :: r) :: rs
          | [] => [[c]]
        else [c] :: rest
      | [] => [[c]]
    else rest

/-- `reco/ranker.py::_tokenize`: accent strip, casefold, word-regex split. -/
def tokenize (text : String) : List String :=
  (splitRuns (caseFold (stripAccents text)).data).map (fun cs => String.mk cs)

end Leve

namespace Leve

/-- The fields of `schemas/trail_candidate.py::TrailCandidate` used by the
embedded functions.  `publicId` (a UUID in the schema) is carried as its
string form; fields the sanitizer may set to `None` at runtime are `Option`. -/
structure TrailCandidate where
  publicId : String
  slug : Option String := none
  title : String := ""
  tags : List String := []
  difficulty : Option String := none
  description : Option String := none
  status : Option String := none
  combined_text : String := ""
  deriving Repr, DecidableEq, Inhabited

/-- The fields of `reco/config.py::RecoConfig` read by the embedded
functions (the dataclass' HTTP/embedding/observability knobs are never
touched by them).  Crucially, `RecoConfig` has **no** `NORMALIZE_MIN` /
`NORMALIZE_MAX` attributes — `indexer.score` nevertheless reads them. -/
structure RecoConfig where
  MAX_SUGGESTIONS : Int := 3
  TAG_BOOST : ℚ := mkRat 10 100
  BEGINNER_BOOST : ℚ := mkRat 5 100
  TITLE_DESC_BOOST : ℚ := mkRat 15 100
  SCORE_CAP : ℚ := mkRat 99 100
  DOMINANCE_MIN_ACCEPT : ℚ := mkRat 60 100
  MATCH_THRESHOLD_TRILHAS : ℚ := mkRat 72 100
  MATCH_THRESHOLD_VAGAS : ℚ := mkRat 78 100
  ALLOWED_STATUS : List String := ["Published"]
  deriving Repr, DecidableEq, Inhabited

/-- Default-constructed `RecoConfig()`. -/
def RecoConfig.default : RecoConfig := {}

/-- `reco/ranker.py::ScoredCandidate`. -/
structure ScoredCandidate where
  candidate : TrailCandidate
  match_score : ℚ
  applied_boosts : List String := []
  base_score : Option ℚ := none
  score_semantic : Option ℚ := none
  score_bm25 : Option ℚ := none
  score_combined : Option ℚ := none
  deriving Repr, DecidableEq, Inhabited

/-- `reco/ranker.py::_has_title_desc_keyword`: some query token of length > 2
occurs as a substring of the accent-stripped, casefolded
`title | description | combined_text` haystack. -/
def hasTitleDescKeyword (cand : TrailCandidate) (queryTokens : List String) : Bool :=
  let q := queryTokens.filter (fun t => 2 < t.length)
  if q.isEmpty then false
  else
    let hay := cand.title ++ " | " ++ cand.description.getD "" ++ " | " ++ cand.combined_text
    let hayNorm := caseFold (stripAccents hay)
    q.any (fun tok => decide (tok.data <:+: hayNorm.data))

/-- `reco/ranker.py::_apply_boosts`: title/description boost, tag boost,
beginner boost, then cap at `SCORE_CAP` and clamp to `[0, 1]`. -/
def applyBoosts (baseScore : ℚ) (cand : TrailCandidate) (queryTokens : List String)
    (cfg : RecoConfig) : ℚ × List String :=
  let s0 : ℚ × List String := (baseScore, [])
  let s1 :=
    if hasTitleDescKeyword cand queryTokens then
      (s0.1 + cfg.TITLE_DESC_BOOST, s0.2 ++ ["title_desc_match"])
    else s0
  let tagTokens := (cand.tags.map tokenize).flatten
  let s2 :=
    if ¬ tagTokens.isEmpty ∧ tagTokens.any (fun t => queryTokens.contains t) then
      (s1.1 + cfg.TAG_BOOST, s1.2 ++ ["tag_match"])
    else s1
  let s3 :=
    if caseFold (cand.difficulty.getD "") = "beginner" then
      (s2.1 + cfg.BEGINNER_BOOST, s2.2 ++ ["beginner_boost"])
    else s2
  let capped := if cfg.SCORE_CAP < s3.1 then cfg.SCORE_CAP else s3.1
  let clamped := if capped < 0 then 0 else if 1 < capped then 1 else capped
  (clamped, s3.2)

/-- One hybrid-shape input record of `reco/ranker.py::rank`
(a dict with a candidate and optional component scores; a record whose
`candidate` value is not a `TrailCandidate` is modeled by `none`). -/
structure HybridItem where
  candidate : Option TrailCandidate := none
  score_combined : Option ℚ := none
  score_semantic : Option ℚ := none
  score_bm25 : Option ℚ := none
  deriving Repr, DecidableEq, Inhabited

/-- `reco/ranker.py::RankInput`: legacy `[(candidate, score)]` or hybrid
list of dicts, as a tagged union. -/
inductive RankInput where
  | legacy (items : List (TrailCandidate × ℚ))
  | hybrid (items : List HybridItem)
  deriving Repr, DecidableEq

/-- Canonical record produced by `_coerce_inputs`:
`(candidate, score_combined, score_semantic, score_bm25)`. -/
abbrev CoercedItem := TrailCandidate × Option ℚ × Option ℚ × Option ℚ

/-- `reco/ranker.py::_coerce_inputs`: legacy scores land in the `bm25` slot;
hybrid records without a proper candidate are skipped. -/
def coerceInputs : RankInput → List CoercedItem
  | .legacy items => items.map (fun cs => (cs.1, none, none, some cs.2))
  | .hybrid items =>
      items.filterMap (fun it =>
        it.candidate.map (fun c => (c, it.score_combined, it.score_semantic, it.score_bm25)))

/-- Threshold selection in `rank`: `"vagas"` uses `MATCH_THRESHOLD_VAGAS`,
anything else `MATCH_THRESHOLD_TRILHAS`. -/
def thresholdFor (cfg : RecoConfig) (collection : String) : ℚ :=
  if collection = "vagas" then cfg.MATCH_THRESHOLD_VAGAS else cfg.MATCH_THRESHOLD_TRILHAS

/-- The enrichment loop of `rank`: base score is `score_combined` when
present, else the legacy `bm25` slot, else `0.0`; boosts applied on top. -/
def enrich (coerced : List CoercedItem) (queryText : String) (cfg : RecoConfig) :
    List ScoredCandidate :=
  let qTokens := tokenize queryText
  coerced.map (fun item =>
    let cand := item.1
    let scoreCombined := item.2.1
    let scoreSem := item.2.2.1
    let scoreBm25 := item.2.2.2
    let baseScore :=
      match scoreCombined with
      | some v => v
      | none => match scoreBm25 with | some v => v | none => 0
    let fb := applyBoosts baseScore cand qTokens cfg
    { candidate := cand, match_score := fb.1, applied_boosts := fb.2,
      base_score := some baseScore, score_semantic := scoreSem,
      score_bm25 := scoreBm25, score_combined := scoreCombined })

/-- `str(sc.candidate.publicId)` as used for deduplication keys. -/
def pidStr (sc : ScoredCandidate) : String := sc.candidate.publicId

/-- Sort key of `_dedup`: `(-match_score, title.casefold(), str(publicId))`,
compared lexicographically.  Strings are compared as their character lists
(code-point lexicographic order, as Python compares `str`). -/
def rankKey (sc : ScoredCandidate) : Lex (ℚ × Lex (List Char × List Char)) :=
  toLex (-sc.match_score, toLex ((caseFold sc.candidate.title).data, (pidStr sc).data))

/-- First-match lookup in an insertion-ordered association list
(the semantics of Python `dict.get` on the model's dict encoding). -/
def assocFind (k : String) : List (String × α) → Option α
  | [] => none
  | kv :: rest => if kv.1 = k then some kv.2 else assocFind k rest

/-- One step of a Python `best_by_id` dict build: insert under `key x`, or
replace the stored value when `better x prev`. -/
def bestUpdate (key : α → String) (better : α → α → Bool)
    (acc : List (String × α)) (x : α) : List (String × α) :=
  match assocFind (key x) acc with
  | none => acc ++ [(key x, x)]
  | some prev =>
      if better x prev then
        acc.map (fun kv => if kv.1 = key x then (kv.1, x) else kv)
      else acc

/-- The full `best_by_id` dict build (insertion-ordered association list). -/
def bestFold (key : α → String) (better : α → α → Bool) (items : List α) :
    List (String × α) :=
  items.foldl (bestUpdate key better) []

/-- `reco/ranker.py::rank`'s inner `_dedup`: keep the highest `match_score`
per `publicId`, then sort by `(-score, casefolded title, id)`. -/
def dedupRanker (items : List ScoredCandidate) : List ScoredCandidate :=
  let vals := (bestFold pidStr (fun sc prev => prev.match_score < sc.match_score) items).map Prod.snd
  List.insertionSort (fun a b => rankKey a ≤ rankKey b) vals

/-- Python slice `l[:n]` for an `int` bound (negative bounds count from the
end, clamped at zero). -/
def pyTakeSlice (l : List α) (n : Int) : List α :=
  if 0 ≤ n then l.take n.toNat else l.take (l.length - n.natAbs)

/-- `reco/ranker.py::rank`: coerce, enrich with boosts, threshold filter,
dedup + sort, dominance fallback, top-N cut. -/
def rank (input : RankInput) (queryText : String) (cfg : RecoConfig)
    (collection : String) (maxResults : Option Int) : List ScoredCandidate :=
  let coerced := coerceInputs input
  if coerced.isEmpty then []
  else
    let threshold := thresholdFor cfg collection
    let maxN : Int :=
      match maxResults with
      | some m => if 0 < m then m else cfg.MAX_SUGGESTIONS
      | none => cfg.MAX_SUGGESTIONS
    let enriched := enrich coerced queryText cfg
    let filtered := enriched.filter (fun sc => threshold ≤ sc.match_score)
    if filtered.isEmpty then
      let dedupAll := dedupRanker enriched
      match dedupAll.head? with
      | some best => if cfg.DOMINANCE_MIN_ACCEPT ≤ best.match_score then [best] else []
      | none => []
    else pyTakeSlice (dedupRanker filtered) maxN

/-! ## Catalog normalizer (`reco/normalizer.py`) -/

/-- Python truthiness of an optional string (`None` and `""` are falsy). -/
def truthyOpt (s : Option String) : Bool :=
  match s with
  | some v => ¬ v.isEmpty
  | none => false

/-- `reco/normalizer.py::_completeness_score`: one point each for a truthy
slug, title, difficulty, description, at least one tag, and combined_text. -/
def completenessScore (c : TrailCandidate) : Nat :=
  (if truthyOpt c.slug then 1 else 0)
  + (if ¬ c.title.isEmpty then 1 else 0)
  + (if truthyOpt c.difficulty then 1 else 0)
  + (if truthyOpt c.description then 1 else 0)
  + (if 0 < c.tags.length then 1 else 0)
  + (if ¬ c.combined_text.isEmpty then 1 else 0)

/-- Hexadecimal digit test, for UUID strings. -/
def isHexDigit (c : Char) : Bool :=
  c.isDigit || ('a' ≤ c && c ≤ 'f') || ('A' ≤ c && c ≤ 'F')

/-- `reco/normalizer.py::_public_id_as_uuid` followed by `str(...)`, modeled
for the canonical hyphenated UUID form `8-4-4-4-12` (Python's `uuid.UUID`
also accepts some further spellings); `str(UUID(...))` yields the lowercase
canonical form.  A string not of this shape parses to `none`. -/
def parseUuid (s : String) : Option String :=
  let cs := s.data
  if cs.length = 36 ∧
      (cs.enum.all (fun ci =>
        if ci.1 = 8 ∨ ci.1 = 13 ∨ ci.1 = 18 ∨ ci.1 = 23 then ci.2 = '-'
        else isHexDigit ci.2)) then
    some (caseFold s)
  else none

/-- Deduplication key of `dedupe_by_public_id`: the canonical UUID string
when `publicId` parses as a UUID, else the raw string. -/
def pidKey (c : TrailCandidate) : String :=
  match parseUuid c.publicId with
  | some u => u
  | none => c.publicId

/-- Sort key of `dedupe_by_public_id`:
`(title.casefold(), slug.casefold(), uuid-or-raw id)`. -/
def normKey (c : TrailCandidate) : Lex (List Char × Lex (List Char × List Char)) :=
  toLex ((caseFold c.title).data,
    toLex ((caseFold (c.slug.getD "")).data, (pidKey c).data))

/-- `reco/normalizer.py::dedupe_by_public_id`: keep, per key, the candidate
with strictly greater completeness (first seen wins ties), then sort stably
by `(title, slug, id)`.  The source's skip of candidates with `publicId is
None` is unreachable under the `TrailCandidate` schema, where `publicId` is
mandatory. -/
def dedupeByPublicId (candidates : List TrailCandidate) : List TrailCandidate :=
  let vals :=
    (bestFold pidKey (fun c prev => completenessScore prev < completenessScore c) candidates).map
      Prod.snd
  List.insertionSort (fun a b => normKey a ≤ normKey b) vals

/-! ## Lexical scorer (`reco/indexer.py`) -/

/-- `reco/indexer.py::_normalize_scores`: empty and all-equal inputs pass
through unchanged; otherwise min-max rescale to `[minVal, maxVal]`. -/
def normalizeScores (scores : List ℚ) (minVal maxVal : ℚ) : List ℚ :=
  match scores with
  | [] => []
  | x :: xs =>
    let l := x :: xs
    if l.dedup.length ≤ 1 then l
    else
      let sMin := xs.foldl min x
      let sMax := xs.foldl max x
      if sMax ≤ sMin then l
      else
        let denom := if sMax - sMin = 0 then sMax - minVal else sMax - sMin
        l.map (fun v => (v - sMin) / denom * (maxVal - minVal) + minVal)

/-- `reco/indexer.py::_prepare_corpus`: the stripped `combined_text` of each
candidate. -/
def prepareCorpus (candidates : List TrailCandidate) : List String :=
  candidates.map (fun c => pyStrip c.combined_text)

/-- `reco/indexer.py::score`.  The external TF-IDF machinery (`fit_transform`,
`transform`, `cosine_similarity`) is abstracted by the oracle `fit`, applied
to the prepared corpus and the stripped query: `Except.error ()` models
`fit_transform` raising `ValueError` (caught by the source), `Except.ok sims`
the cosine-similarity row.  After computing `sims`, the source calls
`_normalize_scores(sims, min_val=cfg.NORMALIZE_MIN, max_val=cfg.NORMALIZE_MAX)`
— but `RecoConfig` defines no `NORMALIZE_MIN`/`NORMALIZE_MAX` attribute, so
evaluating that argument raises `AttributeError`; the model returns
`Except.error` with the state of the raised exception there. -/
def score (fit : List String → String → Except Unit (List ℚ)) (queryText : String)
    (candidates : List TrailCandidate) (_cfg : RecoConfig) :
    Except String (List (TrailCandidate × ℚ)) :=
  if candidates.isEmpty then .ok []
  else
    let q := pyStrip queryText
    if q = "" then .ok (candidates.map (fun c => (c, 0)))
    else
      let corpus := prepareCorpus candidates
      match fit corpus q with
      | .error _ => .ok (candidates.map (fun c => (c, 0)))
      | .ok _sims =>
          .error "AttributeError: RecoConfig object has no attribute NORMALIZE_MIN"

/-! ## Vector index, NumPy backend (`reco/index/vector_index.py`) -/

/-- Metadata map of a vector item (string keys and values). -/
abbrev MetaMap := List (String × String)

/-- A metadata filter value: plain equality, or list membership (`in`). -/
inductive FilterVal where
  | eq (v : String)
  | mem (vs : List String)
  deriving Repr, DecidableEq

/-- `reco/index/vector_index.py::VectorItem` (float32 vectors as `ℚ`). -/
structure VectorItem where
  id : String
  vector : List ℚ
  metadata : MetaMap
  deriving Repr, DecidableEq, Inhabited

/-- The NumPy-backend state of `VectorIndex`: configured dimension, the
`(self._np_ids, self._np_matrix)` rows in position order, and the `self._meta`
dict as an insertion-ordered association list. -/
structure NpIndex where
  dim : Nat
  entries : List (String × List ℚ)
  meta : List (String × MetaMap)
  deriving Repr, DecidableEq

/-- `VectorIndex.size()` for the NumPy backend. -/
def sizeNp (idx : NpIndex) : Nat := idx.entries.length

/-- Python dict assignment `d[k] = v`: replace in place when the key is
present, append otherwise. -/
def dictInsert (k : String) (v : β) (d : List (String × β)) : List (String × β) :=
  if (assocFind k d).isSome then d.map (fun kv => if kv.1 = k then (kv.1, v) else kv)
  else d ++ [(k, v)]

/-- Index of the last occurrence of `a` in `l` (the value a Python
`{id_: pos for pos, id_ in enumerate(ids)}` dict maps `a` to). -/
def lastIdxOf (l : List String) (a : String) : Nat :=
  l.length - 1 - l.reverse.indexOf a

/-- The update pass of `_upsert_numpy`: each item whose id is a pre-call id
overwrites the row at that id's dict position (`id_to_pos`, the last
occurrence); other items leave the rows unchanged. -/
def npWrite (origIds : List String) (entries : List (String × List ℚ))
    (items : List VectorItem) : List (String × List ℚ) :=
  items.foldl
    (fun acc it =>
      if it.id ∈ origIds then acc.set (lastIdxOf origIds it.id) (it.id, it.vector) else acc)
    entries

/-- The append pass of `_upsert_numpy`: rows for the items whose id is new,
in item order. -/
def npPending (origIds : List String) (items : List VectorItem) :
    List (String × List ℚ) :=
  (items.filter (fun it => it.id ∉ origIds)).map (fun it => (it.id, it.vector))

/-- The metadata pass of `_upsert_numpy`: `self._meta[it.id] = it.metadata`
for every item, in order. -/
def npMetaWrite (meta : List (String × MetaMap)) (items : List VectorItem) :
    List (String × MetaMap) :=
  items.foldl (fun m it => dictInsert it.id it.metadata m) meta

/-- `reco/index/vector_index.py::_upsert_numpy`: known ids overwrite their
row (position taken from the id→position dict built from the pre-call ids),
unknown ids are appended in order; metadata is written for every item. -/
def upsertNumpy (idx : NpIndex) (items : List VectorItem) : NpIndex :=
  let origIds := idx.entries.map Prod.fst
  { dim := idx.dim
    entries := npWrite origIds idx.entries items ++ npPending origIds items
    meta := npMetaWrite idx.meta items }

/-- `VectorIndex.upsert` (NumPy backend): validate the dimension of every
item before touching the state, then run `_upsert_numpy` and return the new
size.  A raised `ValueError` is an `Except.error` carrying the state as it
was when the exception propagated. -/
def upsert (idx : NpIndex) (items : List VectorItem) :
    Except (NpIndex × String) (NpIndex × Nat) :=
  if items.isEmpty then .ok (idx, sizeNp idx)
  else if items.all (fun it => it.vector.length = idx.dim) then
    let idx' := upsertNumpy idx items
    .ok (idx', sizeNp idx')
  else .error (idx, "ValueError: vector with wrong dimension")

/-- Dot product (cosine similarity of L2-normalized vectors). -/
def dotQ (a b : List ℚ) : ℚ := (List.zipWith (fun x y => x * y) a b).sum

/-- `VectorIndex._match_filters`: equality and list-membership filters over
the metadata map (a missing key never matches). -/
def matchFilters (meta : MetaMap) (filters : List (String × FilterVal)) : Bool :=
  filters.all (fun kf =>
    match kf.2 with
    | .eq v => assocFind kf.1 meta = some v
    | .mem vs =>
        match assocFind kf.1 meta with
        | some v => v ∈ vs
        | none => false)

/-- `reco/index/vector_index.py::_search_numpy`: score all rows by dot
product, clamp `k` to the row count, pre-filter by metadata, return the
top-k `(id, score, metadata)` by descending score (NumPy's tie order is
modeled as stable). -/
def searchNumpy (idx : NpIndex) (queryVec : List ℚ) (k : Nat)
    (filters : List (String × FilterVal)) : List (String × ℚ × MetaMap) :=
  if idx.entries.isEmpty then []
  else
    let scored := idx.entries.map (fun e => (e.1, dotQ e.2 queryVec))
    let kClamped := min k scored.length
    let subset :=
      if filters.isEmpty then scored
      else scored.filter (fun e => matchFilters ((assocFind e.1 idx.meta).getD []) filters)
    if subset.isEmpty then []
    else
      let sorted := List.insertionSort (fun a b => b.2 ≤ a.2) subset
      (sorted.take kClamped).map (fun e => (e.1, e.2, (assocFind e.1 idx.meta).getD []))

/-- `VectorIndex.search` (NumPy backend): validate the query dimension,
then run `_search_numpy`; a dimension mismatch raises (`Except.error`)
without touching the state. -/
def search (idx : NpIndex) (queryVec : List ℚ) (k : Nat)
    (filters : List (String × FilterVal)) :
    Except (NpIndex × String) (List (String × ℚ × MetaMap)) :=
  if queryVec.length = idx.dim then .ok (searchNumpy idx queryVec k filters)
  else .error (idx, "ValueError: query vector with wrong dimension")

end Leve

namespace Leve.Checks

/-! ## Output business rules (`validators/trail_output_checks.py`) -/

/-- Modelled from the spec: `schemas/trail_output.py::SuggestedTrail` is not
in the source tree; per the result-envelope contract a suggestion carries
`publicId`, `slug`, `title`, `why_match` and `match_score`, with the
optionality the validator's code handles (`publicId`/`slug`/`title` may be
missing, `why_match` is a string). -/
structure SuggestedTrail where
  publicId : Option String := none
  slug : Option String := none
  title : Option String := none
  why_match : String := ""
  match_score : ℚ
  deriving Repr, DecidableEq, Inhabited

/-- Modelled from the spec: `schemas/trail_output.py::TrailOutput` is not in
the source tree; per the result-envelope contract it carries `status`
(`"ok"` or `"fora_do_escopo"`), `short_answer`, `suggested_trails`,
`mensagem_padrao` and `cta`, plus the legacy `web_fallback` field the
validator reads for compatibility (unused in this phase). -/
structure TrailOutput where
  status : String
  short_answer : Option String := none
  suggested_trails : Option (List SuggestedTrail) := none
  mensagem_padrao : Option String := none
  cta : Option String := none
  web_fallback : Option Unit := none
  deriving Repr, DecidableEq

/-- `validators/trail_output_checks.py::MATCH_THRESHOLD` (0.75). -/
def MATCH_THRESHOLD : ℚ := mkRat 75 100

/-- `validators/trail_output_checks.py::MAX_SUGGESTIONS` (3). -/
def MAX_SUGGESTIONS : Int := 3

/-- `validators/trail_output_checks.py::DEFAULT_FALLBACK_MESSAGE`. -/
def DEFAULT_FALLBACK_MESSAGE : String :=
  "No momento não encontrei trilhas publicadas que combinem com a sua dúvida. " ++
  "Você pode tentar reformular com uma palavra-chave (ex.: 'programação', 'carreira')."

/-- `validators/trail_output_checks.py::DEFAULT_SHORT_ANSWER_EMPTY`. -/
def DEFAULT_SHORT_ANSWER_EMPTY : String :=
  "Ainda não encontrei trilhas publicadas que combinem com a sua dúvida."

/-- `validators/trail_output_checks.py::DEFAULT_CTA_EMPTY`. -/
def DEFAULT_CTA_EMPTY : String := "Tentar de novo"

/-- `validators/trail_output_checks.py::DEFAULT_WHY_MATCH`. -/
def DEFAULT_WHY_MATCH : String := "Combina com o que você buscou."

/-- `_strip_text` on an optional string. -/
def stripOpt (s : Option String) : Option String := s.map pyStrip

/-- `validators/trail_output_checks.py::_strip_text_fields`. -/
def stripTextFields (o : TrailOutput) : TrailOutput :=
  { o with
    short_answer := stripOpt o.short_answer
    cta := stripOpt o.cta
    mensagem_padrao := stripOpt o.mensagem_padrao
    suggested_trails :=
      o.suggested_trails.map (fun l => l.map (fun s => { s with why_match := pyStrip s.why_match })) }

/-- Dict key of `_dedupe_keep_best`: `pid:` key when `publicId` is present,
else `slug:` key when the slug is truthy, else a `title:` key. -/
def sgKey (s : SuggestedTrail) : String :=
  match s.publicId with
  | some pid => "pid:" ++ pid
  | none =>
    match s.slug with
    | some sl => if ¬ sl.isEmpty then "slug:" ++ caseFold sl else "title:" ++ caseFold (s.title.getD "")
    | none => "title:" ++ caseFold (s.title.getD "")

/-- Python `str(x)` of an optional value (`str(None) = "None"`). -/
def optStr (s : Option String) : String :=
  match s with
  | some v => v
  | none => "None"

/-- Sort key of `_dedupe_keep_best`:
`(-match_score, title.casefold(), str(publicId))`. -/
def sgSortKey (s : SuggestedTrail) : Lex (ℚ × Lex (List Char × List Char)) :=
  toLex (-s.match_score, toLex ((caseFold (s.title.getD "")).data, (optStr s.publicId).data))

/-- `validators/trail_output_checks.py::_dedupe_keep_best`. -/
def dedupeKeepBest (items : List SuggestedTrail) : List SuggestedTrail :=
  let vals := (bestFold sgKey (fun s prev => prev.match_score < s.match_score) items).map Prod.snd
  List.insertionSort (fun a b => sgSortKey a ≤ sgSortKey b) vals

/-- `validators/trail_output_checks.py::_enforce_threshold`. -/
def enforceThreshold (items : List SuggestedTrail) (threshold : ℚ) : List SuggestedTrail :=
  items.filter (fun s => threshold ≤ s.match_score)

/-- `validators/trail_output_checks.py::_cap_suggestions`:
`items[:max(1, min(max_n, MAX_SUGGESTIONS))]`. -/
def capSuggestions (items : List SuggestedTrail) (maxN : Int) : List SuggestedTrail :=
  let m := max 1 (min maxN MAX_SUGGESTIONS)
  pyTakeSlice items m

/-- `validators/trail_output_checks.py::_fill_missing_why_match`: any
`why_match` stripping to fewer than 5 characters becomes the default. -/
def fillMissingWhyMatch (items : List SuggestedTrail) : List SuggestedTrail :=
  items.map (fun s =>
    if (pyStrip s.why_match).length < 5 then { s with why_match := DEFAULT_WHY_MATCH } else s)

/-- `validators/trail_output_checks.py::_ensure_suggestions_list` (the model
has no legacy single-suggestion field). -/
def ensureSuggestionsList (o : TrailOutput) : List SuggestedTrail :=
  o.suggested_trails.getD []

/-- `validators/trail_output_checks.py::_write_suggestions_list`: an empty or
absent list is written back as `None`. -/
def writeSuggestionsList (o : TrailOutput) (items : Option (List SuggestedTrail)) : TrailOutput :=
  { o with suggested_trails :=
      match items with
      | some l => if l.isEmpty then none else some l
      | none => none }

/-- Python `a or default` for an optional string (`None` and `""` falsy). -/
def orDefault (m : Option String) (d : String) : String :=
  match m with
  | some s => if s = "" then d else s
  | none => d

/-- `validators/trail_output_checks.py::_ensure_status_coherence`. -/
def ensureStatusCoherence (o : TrailOutput) : TrailOutput :=
  let suggestions := ensureSuggestionsList o
  let hasTrails := ¬ suggestions.isEmpty
  let hasFallback := o.web_fallback.isSome
  if o.status = "ok" then
    if ¬ hasTrails ∧ ¬ hasFallback then
      { o with
        status := "fora_do_escopo"
        mensagem_padrao := some (orDefault o.mensagem_padrao DEFAULT_FALLBACK_MESSAGE)
        suggested_trails := none
        web_fallback := none
        short_answer := some DEFAULT_SHORT_ANSWER_EMPTY
        cta := some DEFAULT_CTA_EMPTY }
    else o
  else if o.status = "fora_do_escopo" then
    { o with
      suggested_trails := none
      web_fallback := none
      mensagem_padrao := some (orDefault o.mensagem_padrao DEFAULT_FALLBACK_MESSAGE)
      short_answer := some DEFAULT_SHORT_ANSWER_EMPTY
      cta := some DEFAULT_CTA_EMPTY }
  else o

/-- `validators/trail_output_checks.py::apply_business_rules` (the final
re-validation against the Pydantic schema, an identity on well-formed
outputs, is not modeled). -/
def applyBusinessRules (o : TrailOutput) : TrailOutput :=
  let o1 := stripTextFields o
  let suggestions := ensureSuggestionsList o1
  let o2 :=
    if suggestions.isEmpty then o1
    else
      let s1 := enforceThreshold suggestions MATCH_THRESHOLD
      let s2 := dedupeKeepBest s1
      let s3 := capSuggestions s2 MAX_SUGGESTIONS
      let s4 := fillMissingWhyMatch s3
      writeSuggestionsList o1 (if s4.isEmpty then none else some s4)
  ensureStatusCoherence o2

end Leve.Checks

namespace Leve

/-! ## Reference functions used to state and prove the claims -/

/-- Reference fold describing which element a `best_by_id` dict keeps for one
key class: starting from `o`, a later element replaces the current one only
when `better` holds, so equal-measure elements keep the first seen. -/
def classFold (better : α → α → Bool) (o : Option α) (l : List α) : Option α :=
  l.foldl
    (fun acc x =>
      match acc with
      | none => some x
      | some b => if better x b then some x else some b)
    o

/-- The list `rank` feeds to its `_dedup`: the threshold survivors, or, when
none survive, all enriched candidates (dominance-fallback path). -/
def rankDedupInput (input : RankInput) (queryText : String) (cfg : RecoConfig)
    (collection : String) : List ScoredCandidate :=
  let enriched := enrich (coerceInputs input) queryText cfg
  let filtered := enriched.filter (fun sc => thresholdFor cfg collection ≤ sc.match_score)
  if filtered.isEmpty then enriched else filtered

/-- The last item of `items` with the given id (what the metadata dict ends
up storing for a key). -/
def lastWithId (k : String) (items : List VectorItem) : Option VectorItem :=
  (items.filter (fun it => it.id = k)).getLast?

/-- The last item of `items` that writes row `q` during `npWrite` with the
given id→position dict base. -/
def lastWriteAt (ids : List String) (q : Nat) (items : List VectorItem) :
    Option VectorItem :=
  (items.filter (fun it => decide (it.id ∈ ids ∧ lastIdxOf ids it.id = q))).getLast?

end Leve

namespace Leve

/-! ## Infrastructure lemmas -/

theorem dedup_length_le_one_of_all_eq {l : List ℚ} (h : ∀ x ∈ l, ∀ y ∈ l, x = y) :
    l.dedup.length ≤ 1 := by
  match l with
  | [] => simp
  | x :: xs =>
    have hsub : (x :: xs).dedup ⊆ [x] := by
      intro a ha
      have := List.mem_dedup.mp ha
      simp [h a this x (by simp)]
    have hnd := List.nodup_dedup (x :: xs)
    match hd : (x :: xs).dedup with
    | [] => simp
    | [_] => simp
    | a :: b :: rest =>
      rw [hd] at hsub hnd
      have ha : a = x := by simpa using hsub (by simp : a ∈ a :: b :: rest)
      have hb : b = x := by simpa using hsub (by simp : b ∈ a :: b :: rest)
      have hne : a ≠ b := by
        have := (List.nodup_cons.mp hnd).1
        simp only [List.mem_cons, not_or] at this
        exact this.1
      exact absurd (ha.trans hb.symm) hne

end Leve

namespace Leve

/-- C10: for every score array whose values are all equal (in particular any
single-element array) `_normalize_scores` returns the array unchanged — no
`NaN` can arise since no division is evaluated — and min-max rescaling is
applied only when the array has more than one distinct value (distinct-count
`≤ 1` always passes through unchanged). -/
theorem normalizeScores_degenerate_unchanged (scores : List ℚ) (minVal maxVal : ℚ) :
    ((∀ x ∈ scores, ∀ y ∈ scores, x = y) → normalizeScores scores minVal maxVal = scores) ∧
    (scores.dedup.length ≤ 1 → normalizeScores scores minVal maxVal = scores) := by
  constructor
  · intro h
    have hd := dedup_length_le_one_of_all_eq h
    match scores with
    | [] => rfl
    | x :: xs => simp only [normalizeScores, if_pos hd]
  · intro hd
    match scores with
    | [] => rfl
    | x :: xs => simp only [normalizeScores, if_pos hd]

/-- Witness for C10 at a concrete all-equal two-element array. -/
theorem normalizeScores_degenerate_unchanged_witness :
    normalizeScores [mkRat 1 2, mkRat 1 2] 0 1 = [mkRat 1 2, mkRat 1 2] :=
  (normalizeScores_degenerate_unchanged [mkRat 1 2, mkRat 1 2] 0 1).1 (by decide)

/-- C1: the lexical scorer's happy path is broken — whenever the candidate
list is non-empty, the query is non-empty after trimming, and the TF-IDF
vectorizer fits successfully, `score` evaluates `cfg.NORMALIZE_MIN`, an
attribute `RecoConfig` does not define, and the resulting `AttributeError`
propagates to the caller instead of a scored list (the spec requires the
function never to raise). -/
theorem score_raises_attribute_error (fit : List String → String → Except Unit (List ℚ))
    (queryText : String) (candidates : List TrailCandidate) (cfg : RecoConfig)
    (hne : candidates ≠ []) (hq : pyStrip queryText ≠ "")
    (hfit : ∃ sims, fit (prepareCorpus candidates) (pyStrip queryText) = .ok sims) :
    score fit queryText candidates cfg =
      .error "AttributeError: RecoConfig object has no attribute NORMALIZE_MIN" := by
  obtain ⟨sims, hsims⟩ := hfit
  have hne' : candidates.isEmpty = false := by
    simpa [List.isEmpty_iff] using hne
  simp only [score, hne', Bool.false_eq_true, if_false, if_neg hq, hsims]

/-- Witness for C1's failing input: one candidate with non-empty text, query
`"python"`, a successfully fitting vectorizer, default `RecoConfig`. -/
theorem score_raises_attribute_error_witness :
    score (fun _ _ => .ok [1]) "python" [{ publicId := "a1", combined_text := "python" }]
      RecoConfig.default =
      .error "AttributeError: RecoConfig object has no attribute NORMALIZE_MIN" :=
  score_raises_attribute_error (fun _ _ => .ok [1]) "python"
    [{ publicId := "a1", combined_text := "python" }] RecoConfig.default
    (by decide) (by decide) ⟨[1], rfl⟩

/-- C8: `upsert` rejects any batch containing a vector whose length differs
from the configured dimension, and `search` rejects a query vector of the
wrong length; in both cases the raised `ValueError` carries the index state
unchanged (validation happens before any mutation). -/
theorem vectorIndex_rejects_dim_mismatch (idx : NpIndex) (items : List VectorItem)
    (q : List ℚ) (k : Nat) (filters : List (String × FilterVal)) :
    ((∃ it ∈ items, it.vector.length ≠ idx.dim) →
      upsert idx items = .error (idx, "ValueError: vector with wrong dimension")) ∧
    (q.length ≠ idx.dim →
      search idx q k filters = .error (idx, "ValueError: query vector with wrong dimension")) := by
  constructor
  · rintro ⟨it, hmem, hdim⟩
    have hne : items.isEmpty = false := by
      rcases items with _ | _
      · cases hmem
      · rfl
    have hall : items.all (fun it => it.vector.length = idx.dim) = false := by
      rw [Bool.eq_false_iff]
      intro htrue
      exact hdim (by simpa using List.all_eq_true.mp htrue it hmem)
    simp only [upsert, hne, Bool.false_eq_true, if_false, hall, if_false]
  · intro hq
    simp only [search, if_neg hq]

/-- Witness for C8: a 2-dimensional index, a 1-dimensional item and a
3-dimensional query are both rejected. -/
theorem vectorIndex_rejects_dim_mismatch_witness :
    upsert ⟨2, [], []⟩ [⟨"x", [1], []⟩] = .error (⟨2, [], []⟩, "ValueError: vector with wrong dimension") ∧
    search ⟨2, [], []⟩ [1, 0, 0] 5 [] = .error (⟨2, [], []⟩, "ValueError: query vector with wrong dimension") :=
  ⟨(vectorIndex_rejects_dim_mismatch ⟨2, [], []⟩ [⟨"x", [1], []⟩] [1, 0, 0] 5 []).1
      ⟨⟨"x", [1], []⟩, by decide, by decide⟩,
    (vectorIndex_rejects_dim_mismatch ⟨2, [], []⟩ [⟨"x", [1], []⟩] [1, 0, 0] 5 []).2 (by decide)⟩

end Leve

namespace Leve

/-- C2 counterexample: with the default config (`MAX_SUGGESTIONS = 3`),
`max_results = 5` and four candidates clearing the threshold, `rank` returns
4 entries — more than `min(max_results, MAX_SUGGESTIONS) = 3`, because the
final cut uses `max_results` alone whenever it is a positive int. -/
theorem rank_topN_counterexample :
    (rank (.legacy [({ publicId := "a1", title := "Alpha" }, mkRat 9 10),
                    ({ publicId := "b2", title := "Beta" }, mkRat 9 10),
                    ({ publicId := "c3", title := "Gamma" }, mkRat 9 10),
                    ({ publicId := "d4", title := "Delta" }, mkRat 9 10)])
        "" RecoConfig.default "trilhas" (some 5)).length = 4 ∧
    ¬ (((rank (.legacy [({ publicId := "a1", title := "Alpha" }, mkRat 9 10),
                    ({ publicId := "b2", title := "Beta" }, mkRat 9 10),
                    ({ publicId := "c3", title := "Gamma" }, mkRat 9 10),
                    ({ publicId := "d4", title := "Delta" }, mkRat 9 10)])
        "" RecoConfig.default "trilhas" (some 5)).length : Int) ≤
      min 5 RecoConfig.default.MAX_SUGGESTIONS) := by
  decide

/-- C2 amended: when `max_results` is a positive int it alone bounds the
result length (`MAX_SUGGESTIONS` is the cut only when `max_results` is absent
or non-positive); `len(ranked) ≤ min(max_results, MAX_SUGGESTIONS)` holds
only in the intended regime `max_results ≤ MAX_SUGGESTIONS`. -/
theorem rank_length_le_maxResults (input : RankInput) (queryText : String)
    (cfg : RecoConfig) (collection : String) (m : Int) (hm : 0 < m) :
    ((rank input queryText cfg collection (some m)).length : Int) ≤ m := by
  unfold rank
  simp only [if_pos hm]
  split
  · simpa using hm.le
  · split
    · split
      · split
        · simpa using hm
        · simpa using hm.le
      · simpa using hm.le
    · simp only [pyTakeSlice, if_pos hm.le]
      have hlen := List.length_take m.toNat (dedupRanker (List.filter
        (fun sc => decide (thresholdFor cfg collection ≤ sc.match_score))
        (enrich (coerceInputs input) queryText cfg)))
      have hm' : (m.toNat : Int) = m := Int.toNat_of_nonneg hm.le
      omega

/-- Witness for the amended C2 at a concrete positive `max_results`. -/
theorem rank_length_le_maxResults_witness :
    ((rank (.legacy [({ publicId := "a1", title := "Alpha" }, mkRat 9 10)]) ""
        RecoConfig.default "trilhas" (some 2)).length : Int) ≤ 2 :=
  rank_length_le_maxResults (.legacy [({ publicId := "a1", title := "Alpha" }, mkRat 9 10)])
    "" RecoConfig.default "trilhas" 2 (by decide)

end Leve

namespace Leve

theorem bestUpdate_snd_mem {key : α → String} {better : α → α → Bool}
    {acc : List (String × α)} {x v : α}
    (hv : v ∈ (bestUpdate key better acc x).map Prod.snd) :
    v ∈ acc.map Prod.snd ∨ v = x := by
  unfold bestUpdate at hv
  split at hv
  · rw [List.map_append] at hv
    rcases List.mem_append.mp hv with h | h
    · exact Or.inl h
    · simp at h
      exact Or.inr h
  · split at hv
    · rw [List.map_map] at hv
      rcases List.mem_map.mp hv with ⟨kv, hkv, hval⟩
      by_cases hk : kv.1 = key x
      · simp only [Function.comp, hk, if_pos] at hval
        exact Or.inr hval.symm
      · simp only [Function.comp, hk, if_neg, not_false_iff] at hval
        exact Or.inl (hval ▸ List.mem_map.mpr ⟨kv, hkv, rfl⟩)
    · exact Or.inl hv

theorem foldl_bestUpdate_snd_mem {key : α → String} {better : α → α → Bool}
    (items : List α) (acc : List (String × α)) (v : α)
    (hv : v ∈ (items.foldl (bestUpdate key better) acc).map Prod.snd) :
    v ∈ acc.map Prod.snd ∨ v ∈ items := by
  induction items generalizing acc with
  | nil => exact Or.inl hv
  | cons x rest ih =>
    rcases ih (bestUpdate key better acc x) hv with h | h
    · rcases bestUpdate_snd_mem h with h' | h'
      · exact Or.inl h'
      · exact Or.inr (h' ▸ List.mem_cons_self x rest)
    · exact Or.inr (List.mem_cons_of_mem x h)

theorem bestFold_snd_subset {key : α → String} {better : α → α → Bool}
    {items : List α} {v : α}
    (hv : v ∈ (bestFold key better items).map Prod.snd) : v ∈ items := by
  rcases foldl_bestUpdate_snd_mem items [] v hv with h | h
  · cases h
  · exact h

theorem mem_of_mem_dedupRanker {items : List ScoredCandidate} {sc : ScoredCandidate}
    (h : sc ∈ dedupRanker items) : sc ∈ items := by
  unfold dedupRanker at h
  exact bestFold_snd_subset ((List.perm_insertionSort _ _).mem_iff.mp h)

theorem rank_eq_take (input : RankInput) (queryText : String) (cfg : RecoConfig)
    (collection : String) (maxResults : Option Int) :
    ∃ n, rank input queryText cfg collection maxResults =
      (dedupRanker (rankDedupInput input queryText cfg collection)).take n := by
  by_cases hc : (coerceInputs input).isEmpty
  · exact ⟨0, by simp only [rank, if_pos hc, List.take_zero]⟩
  · by_cases hf : (List.filter (fun sc => decide (thresholdFor cfg collection ≤ sc.match_score))
        (enrich (coerceInputs input) queryText cfg)).isEmpty
    · cases hdd : dedupRanker (enrich (coerceInputs input) queryText cfg) with
      | nil =>
        exact ⟨0, by
          simp only [rank, rankDedupInput, if_neg hc, if_pos hf, hdd, List.head?_nil,
            List.take_zero]⟩
      | cons best tail =>
        by_cases hdom : cfg.DOMINANCE_MIN_ACCEPT ≤ best.match_score
        · exact ⟨1, by
            simp only [rank, rankDedupInput, if_neg hc, if_pos hf, hdd, List.head?_cons,
              if_pos hdom, List.take_succ_cons, List.take_zero]⟩
        · exact ⟨0, by
            simp only [rank, rankDedupInput, if_neg hc, if_pos hf, hdd, List.head?_cons,
              if_neg hdom, List.take_zero]⟩
    · simp only [rank, rankDedupInput, if_neg hc, if_neg hf, pyTakeSlice]
      split
      · exact ⟨_, rfl⟩
      · exact ⟨_, rfl⟩

theorem rankDedupInput_subset_enrich {input : RankInput} {queryText : String}
    {cfg : RecoConfig} {collection : String} {sc : ScoredCandidate}
    (h : sc ∈ rankDedupInput input queryText cfg collection) :
    sc ∈ enrich (coerceInputs input) queryText cfg := by
  by_cases hf : (List.filter (fun sc => decide (thresholdFor cfg collection ≤ sc.match_score))
      (enrich (coerceInputs input) queryText cfg)).isEmpty
  · rw [rankDedupInput] at h
    simp only [if_pos hf] at h
    exact h
  · rw [rankDedupInput] at h
    simp only [if_neg hf] at h
    exact List.mem_of_mem_filter h

theorem mem_rank_mem_enrich {input : RankInput} {queryText : String} {cfg : RecoConfig}
    {collection : String} {maxResults : Option Int} {sc : ScoredCandidate}
    (h : sc ∈ rank input queryText cfg collection maxResults) :
    sc ∈ enrich (coerceInputs input) queryText cfg := by
  obtain ⟨n, hn⟩ := rank_eq_take input queryText cfg collection maxResults
  rw [hn] at h
  exact rankDedupInput_subset_enrich (mem_of_mem_dedupRanker (List.mem_of_mem_take h))

theorem mem_enrich_match_score {coerced : List CoercedItem} {queryText : String}
    {cfg : RecoConfig} {sc : ScoredCandidate} (h : sc ∈ enrich coerced queryText cfg) :
    ∃ b c, sc.match_score = (applyBoosts b c (tokenize queryText) cfg).1 := by
  unfold enrich at h
  rcases List.mem_map.mp h with ⟨item, _, hval⟩
  exact ⟨_, _, by rw [← hval]⟩

end Leve

namespace Leve

/-- C4: for `0 ≤ SCORE_CAP ≤ 1`, `_apply_boosts` always lands in
`[0, SCORE_CAP]` — even when base score plus all boosts exceeds 1 — and
consequently so does every `match_score` of every entry `rank` returns. -/
theorem applyBoosts_and_rank_score_bounds (cfg : RecoConfig)
    (h0 : 0 ≤ cfg.SCORE_CAP) (h1 : cfg.SCORE_CAP ≤ 1) :
    (∀ (baseScore : ℚ) (cand : TrailCandidate) (queryTokens : List String),
      0 ≤ (applyBoosts baseScore cand queryTokens cfg).1 ∧
      (applyBoosts baseScore cand queryTokens cfg).1 ≤ cfg.SCORE_CAP) ∧
    (∀ (input : RankInput) (queryText collection : String) (maxResults : Option Int),
      ∀ sc ∈ rank input queryText cfg collection maxResults,
        0 ≤ sc.match_score ∧ sc.match_score ≤ cfg.SCORE_CAP) := by
  have part1 : ∀ (baseScore : ℚ) (cand : TrailCandidate) (queryTokens : List String),
      0 ≤ (applyBoosts baseScore cand queryTokens cfg).1 ∧
      (applyBoosts baseScore cand queryTokens cfg).1 ≤ cfg.SCORE_CAP := by
    intro baseScore cand queryTokens
    unfold applyBoosts
    dsimp only
    constructor <;> split_ifs <;> linarith
  refine ⟨part1, ?_⟩
  intro input queryText collection maxResults sc hsc
  obtain ⟨b, c, hbc⟩ := mem_enrich_match_score (mem_rank_mem_enrich hsc)
  rw [hbc]
  exact part1 b c (tokenize queryText)

/-- Witness for C4 at the default configuration and a boost-overflowing base
score: hypotheses `0 ≤ 0.99 ≤ 1` hold and the bound applies. -/
theorem applyBoosts_and_rank_score_bounds_witness :
    0 ≤ (applyBoosts (mkRat 95 100) { publicId := "a1", title := "Alpha" } [] RecoConfig.default).1 ∧
    (applyBoosts (mkRat 95 100) { publicId := "a1", title := "Alpha" } [] RecoConfig.default).1 ≤
      RecoConfig.default.SCORE_CAP :=
  (applyBoosts_and_rank_score_bounds RecoConfig.default (by decide) (by decide)).1
    (mkRat 95 100) { publicId := "a1", title := "Alpha" } []

end Leve

namespace Leve

theorem assocFind_append (k : String) (l1 l2 : List (String × α)) :
    assocFind k (l1 ++ l2) =
      match assocFind k l1 with
      | some v => some v
      | none => assocFind k l2 := by
  induction l1 with
  | nil => rfl
  | cons kv rest ih =>
    by_cases hk : kv.1 = k
    · simp [assocFind, hk]
    · simpa [assocFind, hk] using ih

theorem assocFind_eq_none {k : String} {l : List (String × α)} :
    assocFind k l = none ↔ ∀ kv ∈ l, kv.1 ≠ k := by
  induction l with
  | nil => simp [assocFind]
  | cons kv rest ih =>
    by_cases hk : kv.1 = k
    · simp [assocFind, hk]
    · simp [assocFind, hk, ih]


theorem assocFind_mapReplace (k kx : String) (x : α) (l : List (String × α)) :
    assocFind k (l.map (fun kv => if kv.1 = kx then (kv.1, x) else kv)) =
      match assocFind k l with
      | none => none
      | some v => if k = kx then some x else some v := by
  induction l with
  | nil => rfl
  | cons kv rest ih =>
    by_cases hkx : kv.1 = kx
    · by_cases hk : kv.1 = k
      · have hkkx : k = kx := hk ▸ hkx
        simp [assocFind, hkx, hk, hkkx]
      · have hkxk : ¬ kx = k := fun h => hk (hkx ▸ h)
        simpa [assocFind, hkx, hk, hkxk] using ih
    · by_cases hk : kv.1 = k
      · have hkkx : ¬ k = kx := fun h => hkx (hk.trans h)
        simp [assocFind, hkx, hk, hkkx]
      · simpa [assocFind, hkx, hk] using ih

theorem assocFind_bestUpdate (key : α → String) (better : α → α → Bool)
    (acc : List (String × α)) (x : α) (k : String) :
    assocFind k (bestUpdate key better acc x) =
      if key x = k then
        match assocFind k acc with
        | none => some x
        | some b => if better x b then some x else some b
      else assocFind k acc := by
  unfold bestUpdate
  cases hfind : assocFind (key x) acc with
  | none =>
    dsimp only
    rw [assocFind_append]
    by_cases hk : key x = k
    · rw [hk] at hfind
      simp [assocFind, hfind, hk]
    · cases hacc : assocFind k acc <;> simp [assocFind, hk, hacc]
  | some prev =>
    dsimp only
    by_cases hb : better x prev
    · rw [if_pos hb, assocFind_mapReplace k (key x) x acc]
      by_cases hk : key x = k
      · rw [hk] at hfind
        simp [hfind, hk, hb]
      · have hkk : ¬ k = key x := fun h => hk h.symm
        cases hacc : assocFind k acc <;> simp [hacc, hkk, hk]
    · rw [if_neg hb]
      by_cases hk : key x = k
      · rw [hk] at hfind
        simp [hfind, hk, hb]
      · simp [hk]

theorem assocFind_foldl_bestUpdate (key : α → String) (better : α → α → Bool)
    (items : List α) (acc : List (String × α)) (k : String) :
    assocFind k (items.foldl (bestUpdate key better) acc) =
      classFold better (assocFind k acc) (items.filter (fun x => decide (key x = k))) := by
  induction items generalizing acc with
  | nil => rfl
  | cons x rest ih =>
    rw [List.foldl_cons, ih (bestUpdate key better acc x)]
    by_cases hk : key x = k
    · rw [assocFind_bestUpdate, if_pos hk, List.filter_cons, if_pos (decide_eq_true hk)]
      rfl
    · rw [assocFind_bestUpdate, if_neg hk, List.filter_cons]
      rw [if_neg (by simp [hk])]

theorem assocFind_bestFold (key : α → String) (better : α → α → Bool)
    (items : List α) (k : String) :
    assocFind k (bestFold key better items) =
      classFold better none (items.filter (fun x => decide (key x = k))) :=
  assocFind_foldl_bestUpdate key better items [] k

theorem bestUpdate_key_consistent {key : α → String} {better : α → α → Bool}
    {acc : List (String × α)} {x : α}
    (h : ∀ kv ∈ acc, key kv.2 = kv.1) :
    ∀ kv ∈ bestUpdate key better acc x, key kv.2 = kv.1 := by
  unfold bestUpdate
  cases hfind : assocFind (key x) acc with
  | none =>
    dsimp only
    intro kv hkv
    rcases List.mem_append.mp hkv with hm | hm
    · exact h kv hm
    · simp at hm
      rw [hm]
  | some prev =>
    dsimp only
    by_cases hb : better x prev
    · rw [if_pos hb]
      intro kv hkv
      rcases List.mem_map.mp hkv with ⟨kv', hkv', heq⟩
      by_cases hk : kv'.1 = key x
      · rw [if_pos hk] at heq
        rw [← heq]
        exact hk ▸ rfl
      · rw [if_neg hk] at heq
        exact heq ▸ h kv' hkv'
    · rw [if_neg hb]
      exact h

theorem bestUpdate_map_fst {key : α → String} {better : α → α → Bool}
    (acc : List (String × α)) (x : α) :
    (bestUpdate key better acc x).map Prod.fst = acc.map Prod.fst ∨
    (bestUpdate key better acc x).map Prod.fst = acc.map Prod.fst ++ [key x] ∧
      assocFind (key x) acc = none := by
  unfold bestUpdate
  cases hfind : assocFind (key x) acc with
  | none =>
    dsimp only
    exact Or.inr ⟨by simp, rfl⟩
  | some prev =>
    dsimp only
    by_cases hb : better x prev
    · refine Or.inl ?_
      rw [if_pos hb, List.map_map]
      refine List.map_congr_left ?_
      intro kv _
      by_cases hk : kv.1 = key x <;> simp [Function.comp, hk]
    · exact Or.inl (by rw [if_neg hb])

theorem bestUpdate_keys_nodup {key : α → String} {better : α → α → Bool}
    {acc : List (String × α)} {x : α}
    (h : (acc.map Prod.fst).Nodup) :
    ((bestUpdate key better acc x).map Prod.fst).Nodup := by
  rcases @bestUpdate_map_fst _ key better acc x with heq | ⟨heq, hfind⟩
  · exact heq ▸ h
  · rw [heq]
    have hnot : key x ∉ acc.map Prod.fst := by
      intro hmem
      rcases List.mem_map.mp hmem with ⟨kv, hkv, hfst⟩
      exact (assocFind_eq_none.mp hfind kv hkv) hfst
    simp [List.nodup_append, h, hnot]

theorem bestFold_key_consistent (key : α → String) (better : α → α → Bool)
    (items : List α) : ∀ kv ∈ bestFold key better items, key kv.2 = kv.1 := by
  unfold bestFold
  generalize hacc : ([] : List (String × α)) = acc
  have hbase : ∀ kv ∈ acc, key kv.2 = kv.1 := by
    rw [← hacc]
    intro kv hkv
    cases hkv
  clear hacc
  induction items generalizing acc with
  | nil => exact hbase
  | cons y rest ih => exact ih _ (bestUpdate_key_consistent hbase)

theorem bestFold_keys_nodup (key : α → String) (better : α → α → Bool)
    (items : List α) : ((bestFold key better items).map Prod.fst).Nodup := by
  unfold bestFold
  generalize hacc : ([] : List (String × α)) = acc
  have hbase : (acc.map Prod.fst).Nodup := by
    rw [← hacc]
    exact List.nodup_nil
  clear hacc
  induction items generalizing acc with
  | nil => exact hbase
  | cons y rest ih => exact ih _ (bestUpdate_keys_nodup hbase)

theorem assocFind_of_mem_nodup {l : List (String × α)} {kv : String × α}
    (hmem : kv ∈ l) (hnd : (l.map Prod.fst).Nodup) :
    assocFind kv.1 l = some kv.2 := by
  induction l with
  | nil => cases hmem
  | cons hd tl ih =>
    have hnd1 : (hd.1 :: tl.map Prod.fst).Nodup := by
      rw [← List.map_cons]
      exact hnd
    rcases List.mem_cons.mp hmem with heq | hmem'
    · rw [heq]
      simp [assocFind]
    · have hne : hd.1 ≠ kv.1 := by
        intro hcontra
        exact (List.nodup_cons.mp hnd1).1 (hcontra ▸ List.mem_map.mpr ⟨kv, hmem', rfl⟩)
      have := ih hmem' (List.nodup_cons.mp hnd1).2
      simpa [assocFind, hne]

end Leve

namespace Leve

theorem classFold_cons (better : α → α → Bool) (o : Option α) (x : α) (rest : List α) :
    classFold better o (x :: rest) =
      classFold better
        (match o with
         | none => some x
         | some b => if better x b then some x else some b) rest := rfl

theorem classFold_measure_spec {γ : Type} [LinearOrder γ] (m : α → γ) (l : List α) :
    ∀ (o : Option α) (v : α),
      classFold (fun a b => decide (m b < m a)) o l = some v →
      (o = some v ∨ v ∈ l) ∧ (∀ b, o = some b → m b ≤ m v) ∧ (∀ x ∈ l, m x ≤ m v) := by
  induction l with
  | nil =>
    intro o v h
    refine ⟨Or.inl h, fun b hb => ?_, by simp⟩
    rw [hb] at h
    cases h
    exact le_rfl
  | cons x rest ih =>
    intro o v h
    rw [classFold_cons] at h
    cases o with
    | none =>
      obtain ⟨hmem, hcarry, hrest⟩ := ih (some x) v h
      have hxv : m x ≤ m v := hcarry x rfl
      refine ⟨?_, ?_, ?_⟩
      · rcases hmem with hm | hm
        · cases hm
          exact Or.inr (List.mem_cons_self x rest)
        · exact Or.inr (List.mem_cons_of_mem x hm)
      · intro b hb
        exact absurd hb (by simp)
      · intro y hy
        rcases List.mem_cons.mp hy with hy | hy
        · exact hy ▸ hxv
        · exact hrest y hy
    | some b =>
      dsimp only at h
      by_cases hbx : m b < m x
      · rw [if_pos (decide_eq_true hbx)] at h
        obtain ⟨hmem, hcarry, hrest⟩ := ih (some x) v h
        have hxv : m x ≤ m v := hcarry x rfl
        refine ⟨?_, fun b' hb' => ?_, ?_⟩
        · rcases hmem with hm | hm
          · cases hm
            exact Or.inr (List.mem_cons_self x rest)
          · exact Or.inr (List.mem_cons_of_mem x hm)
        · cases hb'
          exact le_trans hbx.le hxv
        · intro y hy
          rcases List.mem_cons.mp hy with hy | hy
          · exact hy ▸ hxv
          · exact hrest y hy
      · rw [if_neg (by simpa using hbx)] at h
        obtain ⟨hmem, hcarry, hrest⟩ := ih (some b) v h
        have hbv : m b ≤ m v := hcarry b rfl
        have hxv : m x ≤ m v := le_trans (not_lt.mp hbx) hbv
        refine ⟨?_, fun b' hb' => ?_, ?_⟩
        · rcases hmem with hm | hm
          · exact Or.inl hm
          · exact Or.inr (List.mem_cons_of_mem x hm)
        · cases hb'
          exact hbv
        · intro y hy
          rcases List.mem_cons.mp hy with hy | hy
          · exact hy ▸ hxv
          · exact hrest y hy

theorem bestFold_mem_spec {γ : Type} [LinearOrder γ] (key : α → String) (m : α → γ)
    (items : List α) (v : α)
    (hv : v ∈ (bestFold key (fun a b => decide (m b < m a)) items).map Prod.snd) :
    classFold (fun a b => decide (m b < m a)) none
        (items.filter (fun y => decide (key y = key v))) = some v ∧
      v ∈ items ∧ ∀ y ∈ items, key y = key v → m y ≤ m v := by
  obtain ⟨kv, hkv, hsnd⟩ := List.mem_map.mp hv
  have hkey : key v = kv.1 := by
    rw [← hsnd]
    exact bestFold_key_consistent key _ items kv hkv
  have hfind : assocFind kv.1 (bestFold key (fun a b => decide (m b < m a)) items) = some v := by
    rw [← hsnd]
    exact assocFind_of_mem_nodup hkv (bestFold_keys_nodup key _ items)
  rw [assocFind_bestFold, ← hkey] at hfind
  obtain ⟨hmem0, _, hmax⟩ := classFold_measure_spec m _ none v hfind
  have hmem : v ∈ items.filter (fun y => decide (key y = key v)) := by
    rcases hmem0 with hcontra | hm
    · cases hcontra
    · exact hm
  refine ⟨hfind, (List.mem_filter.mp hmem).1, fun y hy hkeq => ?_⟩
  exact hmax y (List.mem_filter.mpr ⟨hy, by simp [hkeq]⟩)

instance rankKeyLe_total : IsTotal ScoredCandidate (fun a b => rankKey a ≤ rankKey b) :=
  ⟨fun a b => le_total (rankKey a) (rankKey b)⟩

instance rankKeyLe_trans : IsTrans ScoredCandidate (fun a b => rankKey a ≤ rankKey b) :=
  ⟨fun _ _ _ h1 h2 => le_trans h1 h2⟩

instance normKeyLe_total : IsTotal TrailCandidate (fun a b => normKey a ≤ normKey b) :=
  ⟨fun a b => le_total (normKey a) (normKey b)⟩

instance normKeyLe_trans : IsTrans TrailCandidate (fun a b => normKey a ≤ normKey b) :=
  ⟨fun _ _ _ h1 h2 => le_trans h1 h2⟩

instance sgSortKeyLe_total :
    IsTotal Checks.SuggestedTrail (fun a b => Checks.sgSortKey a ≤ Checks.sgSortKey b) :=
  ⟨fun a b => le_total (Checks.sgSortKey a) (Checks.sgSortKey b)⟩

instance sgSortKeyLe_trans :
    IsTrans Checks.SuggestedTrail (fun a b => Checks.sgSortKey a ≤ Checks.sgSortKey b) :=
  ⟨fun _ _ _ h1 h2 => le_trans h1 h2⟩

theorem dedupRanker_sorted (items : List ScoredCandidate) :
    List.Sorted (fun a b => rankKey a ≤ rankKey b) (dedupRanker items) :=
  List.sorted_insertionSort _ _

theorem dedupRanker_mem_spec {items : List ScoredCandidate} {sc : ScoredCandidate}
    (h : sc ∈ dedupRanker items) :
    sc ∈ items ∧ ∀ sc' ∈ items, pidStr sc' = pidStr sc → sc'.match_score ≤ sc.match_score := by
  have hv : sc ∈ (bestFold pidStr
      (fun a b => decide (b.match_score < a.match_score)) items).map Prod.snd :=
    (List.perm_insertionSort _ _).mem_iff.mp h
  obtain ⟨_, hmem, hmax⟩ := bestFold_mem_spec pidStr ScoredCandidate.match_score items sc hv
  exact ⟨hmem, hmax⟩

theorem dedupRanker_pid_nodup (items : List ScoredCandidate) :
    ((dedupRanker items).map pidStr).Nodup := by
  unfold dedupRanker
  have hperm : ((List.insertionSort (fun a b => rankKey a ≤ rankKey b)
      ((bestFold pidStr (fun sc prev => decide (prev.match_score < sc.match_score))
        items).map Prod.snd)).map pidStr).Perm
      (((bestFold pidStr (fun sc prev => decide (prev.match_score < sc.match_score))
        items).map Prod.snd).map pidStr) :=
    (List.perm_insertionSort _ _).map pidStr
  refine hperm.nodup_iff.mpr ?_
  rw [List.map_map]
  have hcongr : ((bestFold pidStr (fun sc prev => decide (prev.match_score < sc.match_score))
      items).map (pidStr ∘ Prod.snd)) =
      ((bestFold pidStr (fun sc prev => decide (prev.match_score < sc.match_score))
        items).map Prod.fst) := by
    refine List.map_congr_left ?_
    intro kv hkv
    exact bestFold_key_consistent pidStr _ items kv hkv
  rw [hcongr]
  exact bestFold_keys_nodup pidStr _ items

/-- Score of the head of a sorted-by-`rankKey` list bounds every member. -/
theorem sorted_head_score_max {best : ScoredCandidate} {tail : List ScoredCandidate}
    (hsorted : List.Sorted (fun a b => rankKey a ≤ rankKey b) (best :: tail)) :
    ∀ sc ∈ best :: tail, sc.match_score ≤ best.match_score := by
  intro sc hsc
  rcases List.mem_cons.mp hsc with heq | hmem
  · exact heq ▸ le_rfl
  · have hrel : rankKey best ≤ rankKey sc := (List.sorted_cons.mp hsorted).1 sc hmem
    have hfst : -best.match_score ≤ -sc.match_score := by
      rcases (Prod.Lex.le_iff _ _).mp hrel with hlt | ⟨heq, _⟩
      · exact hlt.le
      · exact le_of_eq heq
    linarith

end Leve

namespace Leve

theorem bestUpdate_length_ge (key : α → String) (better : α → α → Bool)
    (acc : List (String × α)) (x : α) :
    acc.length ≤ (bestUpdate key better acc x).length := by
  unfold bestUpdate
  cases assocFind (key x) acc with
  | none =>
    dsimp only
    rw [List.length_append]
    omega
  | some prev =>
    dsimp only
    by_cases hb : better x prev
    · rw [if_pos hb, List.length_map]
    · rw [if_neg hb]

theorem foldl_bestUpdate_length_ge (key : α → String) (better : α → α → Bool)
    (items : List α) (acc : List (String × α)) :
    acc.length ≤ (items.foldl (bestUpdate key better) acc).length := by
  induction items generalizing acc with
  | nil => exact le_rfl
  | cons x rest ih =>
    exact le_trans (bestUpdate_length_ge key better acc x) (ih (bestUpdate key better acc x))

theorem dedupRanker_ne_nil {items : List ScoredCandidate} (h : items ≠ []) :
    dedupRanker items ≠ [] := by
  match items, h with
  | x :: rest, _ =>
    have hpos : 0 < (dedupRanker (x :: rest)).length := by
      unfold dedupRanker bestFold
      rw [(List.perm_insertionSort _ _).length_eq, List.length_map, List.foldl_cons]
      have hge := foldl_bestUpdate_length_ge pidStr
        (fun sc prev => decide (prev.match_score < sc.match_score)) rest
        (bestUpdate pidStr (fun sc prev => decide (prev.match_score < sc.match_score)) [] x)
      have hone : (bestUpdate pidStr
          (fun sc prev => decide (prev.match_score < sc.match_score)) [] x).length = 1 := rfl
      omega
    exact List.length_pos.mp hpos

theorem enrich_ne_nil {coerced : List CoercedItem} {queryText : String} {cfg : RecoConfig}
    (h : coerced ≠ []) : enrich coerced queryText cfg ≠ [] := by
  unfold enrich
  simpa using h

end Leve

namespace Leve

/-- C5: `rank` never returns two entries with the same `publicId` string;
each returned entry carries the maximum `match_score` among the entries the
deduplication consumed (threshold survivors, or all boosted candidates on the
fallback path) that share its `publicId`; and the returned list is ordered by
`(-match_score, casefolded title, publicId)`. -/
theorem rank_dedup_invariant (input : RankInput) (queryText : String) (cfg : RecoConfig)
    (collection : String) (maxResults : Option Int) :
    ((rank input queryText cfg collection maxResults).map pidStr).Nodup ∧
    (∀ sc ∈ rank input queryText cfg collection maxResults,
      sc ∈ rankDedupInput input queryText cfg collection ∧
      ∀ sc' ∈ rankDedupInput input queryText cfg collection,
        pidStr sc' = pidStr sc → sc'.match_score ≤ sc.match_score) ∧
    List.Sorted (fun a b => rankKey a ≤ rankKey b)
      (rank input queryText cfg collection maxResults) := by
  obtain ⟨n, hn⟩ := rank_eq_take input queryText cfg collection maxResults
  refine ⟨?_, ?_, ?_⟩
  · rw [hn, List.map_take]
    exact List.Nodup.sublist (List.take_sublist _ _) (dedupRanker_pid_nodup _)
  · intro sc hsc
    rw [hn] at hsc
    exact dedupRanker_mem_spec (List.mem_of_mem_take hsc)
  · rw [hn]
    exact List.Pairwise.sublist (List.take_sublist _ _) (dedupRanker_sorted _)

/-- C3: with a non-empty coerced candidate list, when some boosted candidate
clears the per-collection threshold every returned entry clears it too;
otherwise the top deduplicated candidate (which has the maximum score) is
returned alone exactly when it reaches `DOMINANCE_MIN_ACCEPT`, and the
result is empty when it falls below that floor. -/
theorem rank_threshold_and_dominance (input : RankInput) (queryText : String)
    (cfg : RecoConfig) (collection : String) (maxResults : Option Int)
    (hne : coerceInputs input ≠ []) :
    (¬ (List.filter (fun sc => decide (thresholdFor cfg collection ≤ sc.match_score))
          (enrich (coerceInputs input) queryText cfg)).isEmpty →
      ∀ sc ∈ rank input queryText cfg collection maxResults,
        thresholdFor cfg collection ≤ sc.match_score) ∧
    ((List.filter (fun sc => decide (thresholdFor cfg collection ≤ sc.match_score))
          (enrich (coerceInputs input) queryText cfg)).isEmpty →
      ∃ best,
        (dedupRanker (enrich (coerceInputs input) queryText cfg)).head? = some best ∧
        (∀ sc ∈ dedupRanker (enrich (coerceInputs input) queryText cfg),
          sc.match_score ≤ best.match_score) ∧
        (cfg.DOMINANCE_MIN_ACCEPT ≤ best.match_score →
          rank input queryText cfg collection maxResults = [best]) ∧
        (best.match_score < cfg.DOMINANCE_MIN_ACCEPT →
          rank input queryText cfg collection maxResults = [])) := by
  have hc : ¬ (coerceInputs input).isEmpty := by
    simpa [List.isEmpty_iff] using hne
  constructor
  · intro hf sc hsc
    obtain ⟨n, hn⟩ := rank_eq_take input queryText cfg collection maxResults
    rw [hn] at hsc
    have hmem := (dedupRanker_mem_spec (List.mem_of_mem_take hsc)).1
    rw [rankDedupInput] at hmem
    simp only [if_neg hf] at hmem
    simpa using List.of_mem_filter hmem
  · intro hf
    have hdne : dedupRanker (enrich (coerceInputs input) queryText cfg) ≠ [] :=
      dedupRanker_ne_nil (enrich_ne_nil hne)
    cases hdd : dedupRanker (enrich (coerceInputs input) queryText cfg) with
    | nil => exact absurd hdd hdne
    | cons best tail =>
      refine ⟨best, rfl, ?_, ?_, ?_⟩
      · exact sorted_head_score_max (hdd ▸ dedupRanker_sorted _)
      · intro hdom
        simp only [rank, if_neg hc, if_pos hf, hdd, List.head?_cons, if_pos hdom]
      · intro hdom
        simp only [rank, if_neg hc, if_pos hf, hdd, List.head?_cons,
          if_neg (not_le.mpr hdom)]

/-- Witness for C3: one candidate at base score 0.61 with an empty query —
below the 0.72 threshold, above the 0.60 dominance floor. -/
theorem rank_threshold_and_dominance_witness :
    (¬ (List.filter (fun sc => decide (thresholdFor RecoConfig.default "trilhas" ≤ sc.match_score))
          (enrich (coerceInputs (.legacy [({ publicId := "a1", title := "Alpha" }, mkRat 61 100)]))
            "" RecoConfig.default)).isEmpty →
      ∀ sc ∈ rank (.legacy [({ publicId := "a1", title := "Alpha" }, mkRat 61 100)]) ""
          RecoConfig.default "trilhas" none,
        thresholdFor RecoConfig.default "trilhas" ≤ sc.match_score) ∧
    ((List.filter (fun sc => decide (thresholdFor RecoConfig.default "trilhas" ≤ sc.match_score))
          (enrich (coerceInputs (.legacy [({ publicId := "a1", title := "Alpha" }, mkRat 61 100)]))
            "" RecoConfig.default)).isEmpty →
      ∃ best,
        (dedupRanker (enrich (coerceInputs
            (.legacy [({ publicId := "a1", title := "Alpha" }, mkRat 61 100)])) ""
            RecoConfig.default)).head? = some best ∧
        (∀ sc ∈ dedupRanker (enrich (coerceInputs
            (.legacy [({ publicId := "a1", title := "Alpha" }, mkRat 61 100)])) ""
            RecoConfig.default), sc.match_score ≤ best.match_score) ∧
        (RecoConfig.default.DOMINANCE_MIN_ACCEPT ≤ best.match_score →
          rank (.legacy [({ publicId := "a1", title := "Alpha" }, mkRat 61 100)]) ""
            RecoConfig.default "trilhas" none = [best]) ∧
        (best.match_score < RecoConfig.default.DOMINANCE_MIN_ACCEPT →
          rank (.legacy [({ publicId := "a1", title := "Alpha" }, mkRat 61 100)]) ""
            RecoConfig.default "trilhas" none = [])) :=
  rank_threshold_and_dominance
    (.legacy [({ publicId := "a1", title := "Alpha" }, mkRat 61 100)]) ""
    RecoConfig.default "trilhas" none (by decide)

end Leve

namespace Leve

theorem dedupeByPublicId_mem_spec {candidates : List TrailCandidate} {c : TrailCandidate}
    (h : c ∈ dedupeByPublicId candidates) :
    c ∈ candidates ∧
      (∀ c' ∈ candidates, pidKey c' = pidKey c → completenessScore c' ≤ completenessScore c) ∧
      classFold (fun a b => decide (completenessScore b < completenessScore a)) none
        (candidates.filter (fun y => decide (pidKey y = pidKey c))) = some c := by
  have hv : c ∈ (bestFold pidKey
      (fun a b => decide (completenessScore b < completenessScore a)) candidates).map Prod.snd :=
    (List.perm_insertionSort _ _).mem_iff.mp h
  obtain ⟨hfold, hmem, hmax⟩ := bestFold_mem_spec pidKey completenessScore candidates c hv
  exact ⟨hmem, hmax, hfold⟩

/-- C7: `dedupe_by_public_id` keeps at most one candidate per (canonicalized)
`publicId`; the kept candidate is the class's first-seen candidate of maximal
completeness (the `classFold` clause: later candidates replace the kept one
only with strictly greater completeness); and the result is sorted by
`(casefolded title, casefolded slug, publicId string)`. -/
theorem dedupeByPublicId_spec (candidates : List TrailCandidate) :
    ((dedupeByPublicId candidates).map pidKey).Nodup ∧
    (∀ c ∈ dedupeByPublicId candidates,
      c ∈ candidates ∧
      (∀ c' ∈ candidates, pidKey c' = pidKey c → completenessScore c' ≤ completenessScore c) ∧
      classFold (fun a b => decide (completenessScore b < completenessScore a)) none
        (candidates.filter (fun y => decide (pidKey y = pidKey c))) = some c) ∧
    List.Sorted (fun a b => normKey a ≤ normKey b) (dedupeByPublicId candidates) := by
  refine ⟨?_, fun c hc => dedupeByPublicId_mem_spec hc, List.sorted_insertionSort _ _⟩
  unfold dedupeByPublicId
  have hperm : ((List.insertionSort (fun a b => normKey a ≤ normKey b)
      ((bestFold pidKey (fun c prev => decide (completenessScore prev < completenessScore c))
        candidates).map Prod.snd)).map pidKey).Perm
      (((bestFold pidKey (fun c prev => decide (completenessScore prev < completenessScore c))
        candidates).map Prod.snd).map pidKey) :=
    (List.perm_insertionSort _ _).map pidKey
  refine hperm.nodup_iff.mpr ?_
  rw [List.map_map]
  have hcongr : ((bestFold pidKey
      (fun c prev => decide (completenessScore prev < completenessScore c))
      candidates).map (pidKey ∘ Prod.snd)) =
      ((bestFold pidKey (fun c prev => decide (completenessScore prev < completenessScore c))
        candidates).map Prod.fst) := by
    refine List.map_congr_left ?_
    intro kv hkv
    exact bestFold_key_consistent pidKey _ candidates kv hkv
  rw [hcongr]
  exact bestFold_keys_nodup pidKey _ candidates

end Leve

namespace Leve.Checks

theorem ensureStatusCoherence_rewrite {o : TrailOutput}
    (hok : o.status = "ok") (hs : ensureSuggestionsList o = [])
    (hwf : o.web_fallback = none) :
    ensureStatusCoherence o =
      { o with
        status := "fora_do_escopo"
        mensagem_padrao := some (orDefault o.mensagem_padrao DEFAULT_FALLBACK_MESSAGE)
        suggested_trails := none
        web_fallback := none
        short_answer := some DEFAULT_SHORT_ANSWER_EMPTY
        cta := some DEFAULT_CTA_EMPTY } := by
  simp [ensureStatusCoherence, hs, hwf, hok]

theorem ensureStatusCoherence_noop {o : TrailOutput}
    (hok : o.status = "ok") (hs : ensureSuggestionsList o ≠ []) :
    ensureStatusCoherence o = o := by
  have hs' : ¬ (ensureSuggestionsList o).isEmpty := by
    simpa [List.isEmpty_iff] using hs
  simp [ensureStatusCoherence, hok, hs']


theorem ensureSuggestionsList_stripTextFields (o : TrailOutput) :
    ensureSuggestionsList (stripTextFields o) =
      (o.suggested_trails.getD []).map (fun s => { s with why_match := pyStrip s.why_match }) := by
  cases hst : o.suggested_trails with
  | none => simp [ensureSuggestionsList, stripTextFields, hst]
  | some l => simp [ensureSuggestionsList, stripTextFields, hst]

theorem orDefault_ne_empty (m : Option String) :
    orDefault m DEFAULT_FALLBACK_MESSAGE ≠ "" := by
  cases m with
  | none => decide
  | some s =>
    unfold orDefault
    by_cases hse : s = ""
    · simp only [hse, if_pos]
      decide
    · simp [hse]

theorem mem_fillMissingWhyMatch {l : List SuggestedTrail} {s : SuggestedTrail}
    (h : s ∈ fillMissingWhyMatch l) : ∃ s0 ∈ l, s.match_score = s0.match_score := by
  rcases List.mem_map.mp h with ⟨s0, hs0, heq⟩
  refine ⟨s0, hs0, ?_⟩
  rw [← heq]
  by_cases hlen : (Leve.pyStrip s0.why_match).length < 5 <;> simp [hlen]

theorem mem_capSuggestions {l : List SuggestedTrail} {maxN : Int} {s : SuggestedTrail}
    (h : s ∈ capSuggestions l maxN) : s ∈ l := by
  simp only [capSuggestions, Leve.pyTakeSlice] at h
  split at h <;> exact List.mem_of_mem_take h

theorem mem_dedupeKeepBest {l : List SuggestedTrail} {s : SuggestedTrail}
    (h : s ∈ dedupeKeepBest l) : s ∈ l := by
  unfold dedupeKeepBest at h
  exact Leve.bestFold_snd_subset ((List.perm_insertionSort _ _).mem_iff.mp h)

end Leve.Checks

namespace Leve.Checks

/-- C6: on an `"ok"` output (with the unused legacy web fallback absent, as
in the spec's envelope), `apply_business_rules` drops every suggestion whose
`match_score` is below the validator's own `MATCH_THRESHOLD = 0.75` — a
constant distinct from the ranker's configurable 0.72 — and when nothing
survives it rewrites the output to `"fora_do_escopo"` with a non-empty
fallback message (the default when none was supplied), the default short
answer, the default call-to-action and no suggestions. -/
theorem applyBusinessRules_threshold_and_rewrite (o : TrailOutput)
    (hok : o.status = "ok") (hwf : o.web_fallback = none) :
    (MATCH_THRESHOLD = mkRat 75 100 ∧
      Leve.RecoConfig.default.MATCH_THRESHOLD_TRILHAS = mkRat 72 100 ∧
      MATCH_THRESHOLD ≠ Leve.RecoConfig.default.MATCH_THRESHOLD_TRILHAS) ∧
    (∀ s ∈ (applyBusinessRules o).suggested_trails.getD [],
      MATCH_THRESHOLD ≤ s.match_score) ∧
    ((∀ s ∈ o.suggested_trails.getD [], s.match_score < MATCH_THRESHOLD) →
      (applyBusinessRules o).status = "fora_do_escopo" ∧
      (applyBusinessRules o).suggested_trails = none ∧
      (∃ m, (applyBusinessRules o).mensagem_padrao = some m ∧ m ≠ "") ∧
      (applyBusinessRules o).short_answer = some DEFAULT_SHORT_ANSWER_EMPTY ∧
      (applyBusinessRules o).cta = some DEFAULT_CTA_EMPTY) := by
  have ho1status : (stripTextFields o).status = "ok" := hok
  have ho1wf : (stripTextFields o).web_fallback = none := hwf
  refine ⟨⟨rfl, rfl, by decide⟩, ?_, ?_⟩
  · -- every surviving suggestion clears 0.75
    intro s hs
    simp only [applyBusinessRules] at hs
    by_cases hempty : (ensureSuggestionsList (stripTextFields o)).isEmpty
    · rw [if_pos hempty] at hs
      rw [ensureStatusCoherence_rewrite ho1status (List.isEmpty_iff.mp hempty) ho1wf] at hs
      simp at hs
    · rw [if_neg hempty] at hs
      set s4 := fillMissingWhyMatch
        (capSuggestions
          (dedupeKeepBest
            (enforceThreshold (ensureSuggestionsList (stripTextFields o)) MATCH_THRESHOLD))
          MAX_SUGGESTIONS) with hs4
      by_cases h4 : s4.isEmpty
      · rw [if_pos h4] at hs
        have hwrote : (writeSuggestionsList (stripTextFields o) none).status = "ok" := ho1status
        have hwrote2 : ensureSuggestionsList (writeSuggestionsList (stripTextFields o) none) = [] := rfl
        have hwrote3 : (writeSuggestionsList (stripTextFields o) none).web_fallback = none := ho1wf
        rw [ensureStatusCoherence_rewrite hwrote hwrote2 hwrote3] at hs
        simp at hs
      · rw [if_neg h4] at hs
        have hne4 : s4 ≠ [] := by simpa [List.isEmpty_iff] using h4
        have hwstatus : (writeSuggestionsList (stripTextFields o) (some s4)).status = "ok" :=
          ho1status
        have hwsome : (writeSuggestionsList (stripTextFields o) (some s4)).suggested_trails =
            some s4 := by
          unfold writeSuggestionsList
          simp [List.isEmpty_iff, hne4]
        have hwsug : ensureSuggestionsList (writeSuggestionsList (stripTextFields o) (some s4)) =
            s4 := by
          unfold ensureSuggestionsList
          rw [hwsome]
          rfl
        rw [ensureStatusCoherence_noop hwstatus (by rw [hwsug]; exact hne4)] at hs
        rw [hwsome] at hs
        have hmem : s ∈ s4 := by simpa using hs
        obtain ⟨s0, hs0, hscore⟩ := mem_fillMissingWhyMatch (hs4 ▸ hmem)
        have hs0' : s0 ∈ enforceThreshold (ensureSuggestionsList (stripTextFields o))
            MATCH_THRESHOLD := mem_dedupeKeepBest (mem_capSuggestions hs0)
        rw [hscore]
        simpa using List.of_mem_filter hs0'
  · -- nothing survives: coherent out-of-scope rewrite
    intro hbelow
    have hstrip : ∀ s ∈ ensureSuggestionsList (stripTextFields o),
        s.match_score < MATCH_THRESHOLD := by
      intro s hs
      rw [ensureSuggestionsList_stripTextFields] at hs
      rcases List.mem_map.mp hs with ⟨s0, hs0, heq⟩
      rw [← heq]
      exact hbelow s0 hs0
    have hresult : applyBusinessRules o =
        { stripTextFields o with
          status := "fora_do_escopo"
          mensagem_padrao := some (orDefault (stripTextFields o).mensagem_padrao
            DEFAULT_FALLBACK_MESSAGE)
          suggested_trails := none
          web_fallback := none
          short_answer := some DEFAULT_SHORT_ANSWER_EMPTY
          cta := some DEFAULT_CTA_EMPTY } := by
      simp only [applyBusinessRules]
      by_cases hempty : (ensureSuggestionsList (stripTextFields o)).isEmpty
      · rw [if_pos hempty]
        exact ensureStatusCoherence_rewrite ho1status (List.isEmpty_iff.mp hempty) ho1wf
      · rw [if_neg hempty]
        have hs1 : enforceThreshold (ensureSuggestionsList (stripTextFields o))
            MATCH_THRESHOLD = [] := by
          rw [enforceThreshold, List.filter_eq_nil_iff]
          intro s hsm
          simpa using not_le.mpr (hstrip s hsm)
        rw [hs1]
        have h4 : (fillMissingWhyMatch (capSuggestions (dedupeKeepBest [])
            MAX_SUGGESTIONS)).isEmpty := by decide
        rw [if_pos h4]
        have hwrote : (writeSuggestionsList (stripTextFields o) none).status = "ok" := ho1status
        have hwrote2 : ensureSuggestionsList (writeSuggestionsList (stripTextFields o) none) = [] := rfl
        have hwrote3 : (writeSuggestionsList (stripTextFields o) none).web_fallback = none := ho1wf
        rw [ensureStatusCoherence_rewrite hwrote hwrote2 hwrote3]
        rfl
    rw [hresult]
    exact ⟨rfl, rfl, ⟨_, rfl, orDefault_ne_empty _⟩, rfl, rfl⟩

/-- Witness for C6: a concrete `"ok"` output whose single suggestion scores
0.7 — below 0.75 — is rewritten to a coherent `"fora_do_escopo"`. -/
theorem applyBusinessRules_threshold_and_rewrite_witness :
    (applyBusinessRules
        { status := "ok"
          suggested_trails := some [{ publicId := some "a1", title := some "Alpha",
                                      why_match := "porque sim", match_score := mkRat 7 10 }] }).status =
      "fora_do_escopo" ∧
    (applyBusinessRules
        { status := "ok"
          suggested_trails := some [{ publicId := some "a1", title := some "Alpha",
                                      why_match := "porque sim", match_score := mkRat 7 10 }] }).suggested_trails =
      none :=
  have h := applyBusinessRules_threshold_and_rewrite
    { status := "ok"
      suggested_trails := some [{ publicId := some "a1", title := some "Alpha",
                                  why_match := "porque sim", match_score := mkRat 7 10 }] }
    rfl rfl
  have h3 := h.2.2 (by decide)
  ⟨h3.1, h3.2.1⟩

end Leve.Checks

namespace Leve

theorem mem_of_getLast?_eq_some {l : List α} {a : α} (h : l.getLast? = some a) : a ∈ l := by
  obtain ⟨hne, heq⟩ := List.mem_getLast?_eq_getLast (show a ∈ l.getLast? from h)
  exact heq ▸ List.getLast_mem hne

theorem lastIdxOf_lt_length {l : List String} {a : String} (h : a ∈ l) :
    lastIdxOf l a < l.length := by
  have hrev : a ∈ l.reverse := List.mem_reverse.mpr h
  have hidx : List.indexOf a l.reverse < l.reverse.length := List.indexOf_lt_length.mpr hrev
  rw [List.length_reverse] at hidx
  have hpos : 0 < l.length := List.length_pos.mpr (List.ne_nil_of_mem h)
  unfold lastIdxOf
  omega

theorem getElem?_lastIdxOf {l : List String} {a : String} (h : a ∈ l) :
    l[lastIdxOf l a]? = some a := by
  have hrev : a ∈ l.reverse := List.mem_reverse.mpr h
  have hidx : List.indexOf a l.reverse < l.reverse.length := List.indexOf_lt_length.mpr hrev
  have hget0 := List.indexOf_get hidx
  rw [List.get_eq_getElem, List.getElem_reverse] at hget0
  have hlt : lastIdxOf l a < l.length := lastIdxOf_lt_length h
  rw [List.getElem?_eq_getElem hlt]
  exact congrArg some hget0

theorem lastIdxOf_append_of_mem_right {l1 l2 : List String} {a : String} (h : a ∈ l2) :
    lastIdxOf (l1 ++ l2) a = l1.length + lastIdxOf l2 a := by
  unfold lastIdxOf
  rw [List.reverse_append, List.indexOf_append_of_mem (List.mem_reverse.mpr h),
    List.length_append]
  have hidx : List.indexOf a l2.reverse < l2.reverse.length :=
    List.indexOf_lt_length.mpr (List.mem_reverse.mpr h)
  rw [List.length_reverse] at hidx
  omega

theorem lastIdxOf_append_of_not_mem_right {l1 l2 : List String} {a : String}
    (h2 : a ∉ l2) (h1 : a ∈ l1) :
    lastIdxOf (l1 ++ l2) a = lastIdxOf l1 a := by
  unfold lastIdxOf
  rw [List.reverse_append, List.indexOf_append_of_not_mem (fun hc => h2 (List.mem_reverse.mp hc)),
    List.length_append, List.length_reverse]
  have hidx : List.indexOf a l1.reverse < l1.reverse.length :=
    List.indexOf_lt_length.mpr (List.mem_reverse.mpr h1)
  rw [List.length_reverse] at hidx
  omega

theorem npWrite_length (origIds : List String) (entries : List (String × List ℚ))
    (items : List VectorItem) : (npWrite origIds entries items).length = entries.length := by
  induction items generalizing entries with
  | nil => rfl
  | cons it rest ih =>
    unfold npWrite at ih ⊢
    rw [List.foldl_cons]
    by_cases hmem : it.id ∈ origIds
    · rw [if_pos hmem, ih, List.length_set]
    · rw [if_neg hmem, ih]

theorem npWrite_append (origIds : List String) (entries : List (String × List ℚ))
    (items : List VectorItem) (it : VectorItem) :
    npWrite origIds entries (items ++ [it]) =
      (if it.id ∈ origIds then
        (npWrite origIds entries items).set (lastIdxOf origIds it.id) (it.id, it.vector)
      else npWrite origIds entries items) := by
  unfold npWrite
  rw [List.foldl_append, List.foldl_cons, List.foldl_nil]

theorem lastWriteAt_append (ids : List String) (q : Nat) (items : List VectorItem)
    (it : VectorItem) :
    lastWriteAt ids q (items ++ [it]) =
      if it.id ∈ ids ∧ lastIdxOf ids it.id = q then some it
      else lastWriteAt ids q items := by
  unfold lastWriteAt
  rw [List.filter_append]
  by_cases hcond : it.id ∈ ids ∧ lastIdxOf ids it.id = q
  · rw [if_pos hcond]
    have : List.filter (fun x => decide (x.id ∈ ids ∧ lastIdxOf ids x.id = q)) [it] = [it] := by
      simp [hcond]
    rw [this, List.getLast?_concat]
  · rw [if_neg hcond]
    have : List.filter (fun x => decide (x.id ∈ ids ∧ lastIdxOf ids x.id = q)) [it] = [] := by
      simp only [List.filter_cons, List.filter_nil]
      rw [if_neg (by simpa using hcond)]
    rw [this, List.append_nil]

theorem getElem?_npWrite (ids : List String) (L : List (String × List ℚ))
    (items : List VectorItem) (q : Nat) (hlen : L.length = ids.length) :
    (npWrite ids L items)[q]? =
      match lastWriteAt ids q items with
      | some it => some (it.id, it.vector)
      | none => L[q]? := by
  induction items using List.reverseRecOn with
  | nil => rfl
  | append_singleton items it ih =>
    rw [npWrite_append, lastWriteAt_append]
    by_cases hcond : it.id ∈ ids ∧ lastIdxOf ids it.id = q
    · rw [if_pos hcond.1, if_pos hcond]
      rw [List.getElem?_set, if_pos hcond.2,
        if_pos (by rw [npWrite_length, hlen]; exact hcond.2 ▸ lastIdxOf_lt_length hcond.1)]
    · rw [if_neg hcond]
      by_cases hmem : it.id ∈ ids
      · have hne : lastIdxOf ids it.id ≠ q := fun hq => hcond ⟨hmem, hq⟩
        rw [if_pos hmem, List.getElem?_set, if_neg hne]
        exact ih
      · rw [if_neg hmem]
        exact ih

end Leve

namespace Leve

theorem lastWriteAt_eq_filter_id (ids : List String) (q : Nat) (items : List VectorItem)
    (a : String) (hq : ids[q]? = some a) (hlast : lastIdxOf ids a = q) :
    lastWriteAt ids q items = (items.filter (fun it => decide (it.id = a))).getLast? := by
  unfold lastWriteAt
  congr 1
  apply List.filter_congr
  intro it _
  by_cases hid : it.id = a
  · subst hid
    have hmem : it.id ∈ ids := by
      obtain ⟨hlt, hget⟩ := List.getElem?_eq_some.mp hq
      exact hget ▸ List.getElem_mem hlt
    simp [hmem, hlast]
  · have hnot : ¬ (it.id ∈ ids ∧ lastIdxOf ids it.id = q) := by
      rintro ⟨hm, hl⟩
      have hge := getElem?_lastIdxOf hm
      rw [hl, hq] at hge
      exact hid (Option.some_injective _ hge).symm
    simp [hid, hnot]

theorem getElem?_lastIdxOf_map {l : List VectorItem} {a : String}
    (h : a ∈ l.map VectorItem.id) :
    l[lastIdxOf (l.map VectorItem.id) a]? =
      (l.filter (fun x => decide (x.id = a))).getLast? := by
  induction l using List.reverseRecOn with
  | nil => simp at h
  | append_singleton l x ih =>
    rw [List.filter_append]
    by_cases hfx : x.id = a
    · rw [List.map_append]
      simp only [List.map_cons, List.map_nil]
      rw [lastIdxOf_append_of_mem_right (by simp [hfx])]
      have hzero : lastIdxOf [x.id] a = 0 := by
        subst hfx
        simp [lastIdxOf]
      rw [hzero, Nat.add_zero, List.length_map,
        List.getElem?_append_right (le_refl l.length), Nat.sub_self]
      have hfil : List.filter (fun y => decide (y.id = a)) [x] = [x] := by simp [hfx]
      rw [hfil, List.getLast?_concat]
      rfl
    · have ha' : a ∈ l.map VectorItem.id := by
        rw [List.map_append] at h
        rcases List.mem_append.mp h with h1 | h1
        · exact h1
        · simp at h1
          exact absurd h1.symm hfx
      have hax : a ≠ x.id := fun hc => hfx hc.symm
      have hnot : a ∉ [x.id] := by simp [hax]
      rw [List.map_append]
      simp only [List.map_cons, List.map_nil]
      rw [lastIdxOf_append_of_not_mem_right hnot ha']
      have hlt : lastIdxOf (l.map VectorItem.id) a < l.length := by
        have := lastIdxOf_lt_length ha'
        rwa [List.length_map] at this
      rw [List.getElem?_append, if_pos hlt]
      have hfil : List.filter (fun y => decide (y.id = a)) [x] = [] := by simp [hfx]
      rw [hfil, List.append_nil]
      exact ih ha'

theorem npPending_map_fst (ids : List String) (items : List VectorItem) :
    (npPending ids items).map Prod.fst =
      (items.filter (fun it => decide (it.id ∉ ids))).map VectorItem.id := by
  unfold npPending
  rw [List.map_map]
  rfl

theorem mem_pendIds_not_mem {ids : List String} {items : List VectorItem} {a : String}
    (h : a ∈ (items.filter (fun it => decide (it.id ∉ ids))).map VectorItem.id) : a ∉ ids := by
  rcases List.mem_map.mp h with ⟨it, hit, heq⟩
  have := List.of_mem_filter hit
  rw [← heq]
  simpa using this

theorem npWrite_map_fst {ids : List String} {L : List (String × List ℚ)}
    (items : List VectorItem) (hids : L.map Prod.fst = ids) :
    (npWrite ids L items).map Prod.fst = ids := by
  apply List.ext_getElem?
  intro q
  rw [List.getElem?_map, getElem?_npWrite ids L items q (by rw [← hids, List.length_map])]
  cases hlw : lastWriteAt ids q items with
  | none =>
    rw [← hids, List.getElem?_map]
  | some it =>
    have hmem := mem_of_getLast?_eq_some hlw
    have hcond : it.id ∈ ids ∧ lastIdxOf ids it.id = q := by
      simpa using List.of_mem_filter hmem
    have hge := getElem?_lastIdxOf hcond.1
    rw [hcond.2] at hge
    simpa using hge.symm

theorem assocFind_dictInsert (k0 k : String) (v : α) (d : List (String × α)) :
    assocFind k0 (dictInsert k v d) = if k = k0 then some v else assocFind k0 d := by
  unfold dictInsert
  by_cases hsome : (assocFind k d).isSome
  · rw [if_pos hsome, assocFind_mapReplace k0 k v d]
    by_cases hk : k = k0
    · subst hk
      obtain ⟨w, hw⟩ := Option.isSome_iff_exists.mp hsome
      simp [hw]
    · have hk' : ¬ k0 = k := fun h => hk h.symm
      cases hacc : assocFind k0 d <;> simp [hacc, hk', hk]
  · rw [if_neg hsome, assocFind_append]
    by_cases hk : k = k0
    · subst hk
      have hnone : assocFind k d = none := Option.not_isSome_iff_eq_none.mp hsome
      simp [hnone, assocFind]
    · cases hacc : assocFind k0 d <;> simp [hacc, assocFind, hk]

theorem assocFind_npMetaWrite (k : String) (d : List (String × MetaMap))
    (items : List VectorItem) :
    assocFind k (npMetaWrite d items) =
      match lastWithId k items with
      | some it => some it.metadata
      | none => assocFind k d := by
  induction items using List.reverseRecOn with
  | nil => rfl
  | append_singleton items it ih =>
    unfold npMetaWrite at ih ⊢
    rw [List.foldl_append, List.foldl_cons, List.foldl_nil, assocFind_dictInsert]
    unfold lastWithId at ih ⊢
    rw [List.filter_append]
    by_cases hid : it.id = k
    · rw [if_pos hid]
      have hfil : List.filter (fun x => decide (x.id = k)) [it] = [it] := by simp [hid]
      rw [hfil, List.getLast?_concat]
    · rw [if_neg hid]
      have hfil : List.filter (fun x => decide (x.id = k)) [it] = [] := by simp [hid]
      rw [hfil, List.append_nil]
      exact ih

end Leve

namespace Leve

theorem upsertNumpy_entries_idem (idx : NpIndex) (items : List VectorItem) :
    (upsertNumpy (upsertNumpy idx items) items).entries = (upsertNumpy idx items).entries := by
  have hW_fst : (npWrite (idx.entries.map Prod.fst) idx.entries items).map Prod.fst =
      idx.entries.map Prod.fst := npWrite_map_fst items rfl
  have hWlen : (npWrite (idx.entries.map Prod.fst) idx.entries items).length =
      (idx.entries.map Prod.fst).length := by
    rw [npWrite_length, List.length_map]
  have hP_fst : (npPending (idx.entries.map Prod.fst) items).map Prod.fst =
      (items.filter (fun it => decide (it.id ∉ idx.entries.map Prod.fst))).map VectorItem.id :=
    npPending_map_fst _ items
  have hst1 : (upsertNumpy idx items).entries =
      npWrite (idx.entries.map Prod.fst) idx.entries items ++
        npPending (idx.entries.map Prod.fst) items := rfl
  have hids1 : (upsertNumpy idx items).entries.map Prod.fst =
      idx.entries.map Prod.fst ++
        (items.filter (fun it => decide (it.id ∉ idx.entries.map Prod.fst))).map
          VectorItem.id := by
    rw [hst1, List.map_append, hW_fst, hP_fst]
  have hpend2 : npPending ((upsertNumpy idx items).entries.map Prod.fst) items = [] := by
    unfold npPending
    have hfil : items.filter
        (fun it => decide (it.id ∉ (upsertNumpy idx items).entries.map Prod.fst)) = [] := by
      rw [List.filter_eq_nil_iff]
      intro it hit
      rw [hids1]
      simp only [decide_eq_true_eq, not_not, List.mem_append]
      by_cases hin : it.id ∈ idx.entries.map Prod.fst
      · exact Or.inl hin
      · refine Or.inr (List.mem_map.mpr ⟨it, List.mem_filter.mpr ⟨hit, by simpa using hin⟩, rfl⟩)
    rw [hfil, List.map_nil]
  have hst2 : (upsertNumpy (upsertNumpy idx items) items).entries =
      npWrite ((upsertNumpy idx items).entries.map Prod.fst)
        (upsertNumpy idx items).entries items ++
        npPending ((upsertNumpy idx items).entries.map Prod.fst) items := rfl
  rw [hst2, hpend2, List.append_nil]
  apply List.ext_getElem?
  intro q
  rw [getElem?_npWrite _ _ _ _ (by rw [List.length_map])]
  cases hlw : lastWriteAt ((upsertNumpy idx items).entries.map Prod.fst) q items with
  | none => rfl
  | some it =>
    dsimp only
    have hmem := mem_of_getLast?_eq_some hlw
    have hcond : it.id ∈ (upsertNumpy idx items).entries.map Prod.fst ∧
        lastIdxOf ((upsertNumpy idx items).entries.map Prod.fst) it.id = q := by
      simpa using List.of_mem_filter hmem
    have hq_some : ((upsertNumpy idx items).entries.map Prod.fst)[q]? = some it.id := by
      have := getElem?_lastIdxOf hcond.1
      rwa [hcond.2] at this
    have hfilter_ids1 : lastWriteAt ((upsertNumpy idx items).entries.map Prod.fst) q items =
        (items.filter (fun y => decide (y.id = it.id))).getLast? :=
      lastWriteAt_eq_filter_id _ _ _ _ hq_some hcond.2
    rw [hids1] at hq_some
    by_cases hq : q < (idx.entries.map Prod.fst).length
    · -- the written row lies in the npWrite block
      have hq_ids : (idx.entries.map Prod.fst)[q]? = some it.id := by
        rw [List.getElem?_append, if_pos hq] at hq_some
        exact hq_some
      have hmem_ids : it.id ∈ idx.entries.map Prod.fst := by
        obtain ⟨hlt, hget⟩ := List.getElem?_eq_some.mp hq_ids
        exact hget ▸ List.getElem_mem hlt
      have hnotpend : it.id ∉ (items.filter
          (fun x => decide (x.id ∉ idx.entries.map Prod.fst))).map VectorItem.id :=
        fun hc => (mem_pendIds_not_mem hc) hmem_ids
      have hlast_ids : lastIdxOf (idx.entries.map Prod.fst) it.id = q := by
        have h2 := hcond.2
        rw [hids1, lastIdxOf_append_of_not_mem_right hnotpend hmem_ids] at h2
        exact h2
      have hfilter_ids : lastWriteAt (idx.entries.map Prod.fst) q items =
          (items.filter (fun y => decide (y.id = it.id))).getLast? :=
        lastWriteAt_eq_filter_id _ _ _ _ hq_ids hlast_ids
      symm
      rw [hst1, List.getElem?_append, if_pos (by rw [hWlen]; exact hq),
        getElem?_npWrite _ _ _ _ (by rw [List.length_map]), hfilter_ids, ← hfilter_ids1, hlw]
    · -- the written row lies in the pending block
      have hq_pend : ((items.filter
          (fun x => decide (x.id ∉ idx.entries.map Prod.fst))).map
            VectorItem.id)[q - (idx.entries.map Prod.fst).length]? = some it.id := by
        rw [List.getElem?_append, if_neg hq] at hq_some
        exact hq_some
      have hmem_pend : it.id ∈ (items.filter
          (fun x => decide (x.id ∉ idx.entries.map Prod.fst))).map VectorItem.id := by
        obtain ⟨hlt, hget⟩ := List.getElem?_eq_some.mp hq_pend
        exact hget ▸ List.getElem_mem hlt
      have hnot_ids : it.id ∉ idx.entries.map Prod.fst := mem_pendIds_not_mem hmem_pend
      have hlast_pend : lastIdxOf ((items.filter
          (fun x => decide (x.id ∉ idx.entries.map Prod.fst))).map VectorItem.id) it.id =
          q - (idx.entries.map Prod.fst).length := by
        have h2 := hcond.2
        rw [hids1, lastIdxOf_append_of_mem_right hmem_pend] at h2
        omega
      have hG := getElem?_lastIdxOf_map hmem_pend
      have hFF : (items.filter
          (fun x => decide (x.id ∉ idx.entries.map Prod.fst))).filter
            (fun x => decide (x.id = it.id)) =
          items.filter (fun x => decide (x.id = it.id)) := by
        rw [List.filter_filter]
        apply List.filter_congr
        intro y _
        by_cases hy : y.id = it.id
        · simp [hy, hnot_ids]
        · simp [hy]
      have hFj : (items.filter
          (fun x => decide (x.id ∉ idx.entries.map Prod.fst)))[q -
            (idx.entries.map Prod.fst).length]? = some it := by
        rw [← hlast_pend, hG, hFF, ← hfilter_ids1, hlw]
      symm
      rw [hst1, List.getElem?_append, if_neg (by rw [hWlen]; exact hq), hWlen]
      show (npPending (idx.entries.map Prod.fst) items)[q -
        (idx.entries.map Prod.fst).length]? = some (it.id, it.vector)
      unfold npPending
      rw [List.getElem?_map, hFj]
      rfl

end Leve

namespace Leve

theorem assocFind_upsertNumpy_meta_idem (idx : NpIndex) (items : List VectorItem)
    (k : String) :
    assocFind k (upsertNumpy (upsertNumpy idx items) items).meta =
      assocFind k (upsertNumpy idx items).meta := by
  have h1 : (upsertNumpy idx items).meta = npMetaWrite idx.meta items := rfl
  have h2 : (upsertNumpy (upsertNumpy idx items) items).meta =
      npMetaWrite (npMetaWrite idx.meta items) items := rfl
  rw [h1, h2, assocFind_npMetaWrite, assocFind_npMetaWrite]
  cases lastWithId k items with
  | none => rfl
  | some it => rfl

theorem searchNumpy_congr {st st' : NpIndex} (hE : st'.entries = st.entries)
    (hM : ∀ k, assocFind k st'.meta = assocFind k st.meta)
    (q : List ℚ) (k : Nat) (filters : List (String × FilterVal)) :
    searchNumpy st' q k filters = searchNumpy st q k filters := by
  have hfilter : ∀ L : List (String × ℚ),
      L.filter (fun e => matchFilters ((assocFind e.1 st'.meta).getD []) filters) =
      L.filter (fun e => matchFilters ((assocFind e.1 st.meta).getD []) filters) :=
    fun L => List.filter_congr (fun e _ => by rw [hM e.1])
  have hmap : ∀ L : List (String × ℚ),
      L.map (fun e => (e.1, e.2, (assocFind e.1 st'.meta).getD [])) =
      L.map (fun e => (e.1, e.2, (assocFind e.1 st.meta).getD [])) :=
    fun L => List.map_congr_left (fun e _ => by rw [hM e.1])
  unfold searchNumpy
  rw [hE]
  simp only [hfilter, hmap]

theorem upsertNumpy_nil (idx : NpIndex) : upsertNumpy idx [] = idx := by
  cases idx with
  | mk dim entries meta =>
    unfold upsertNumpy npWrite npPending npMetaWrite
    simp

theorem assocFind_set {E : List (String × α)} {p : Nat} {k : String} {w v : α}
    (hq : E[p]? = some (k, w)) (hnd : (E.map Prod.fst).Nodup) :
    assocFind k (E.set p (k, v)) = some v := by
  induction E generalizing p with
  | nil => simp at hq
  | cons hd tl ih =>
    cases p with
    | zero =>
      simp only [List.getElem?_cons_zero] at hq
      cases hq
      simp [List.set_cons_zero, assocFind]
    | succ p' =>
      simp only [List.getElem?_cons_succ] at hq
      have hmemtl : k ∈ tl.map Prod.fst := by
        obtain ⟨hlt, hget⟩ := List.getElem?_eq_some.mp hq
        exact List.mem_map.mpr ⟨(k, w), hget ▸ List.getElem_mem hlt, rfl⟩
      have hnd1 : (hd.1 :: tl.map Prod.fst).Nodup := by
        rw [← List.map_cons]
        exact hnd
      have hne : hd.1 ≠ k := fun hc => (List.nodup_cons.mp hnd1).1 (hc ▸ hmemtl)
      rw [List.set_cons_succ]
      simpa [assocFind, hne] using ih hq (List.nodup_cons.mp hnd1).2

theorem npWrite_single (idx : NpIndex) (it : VectorItem)
    (hmem : it.id ∈ idx.entries.map Prod.fst) :
    upsertNumpy idx [it] =
      { dim := idx.dim
        entries := idx.entries.set (lastIdxOf (idx.entries.map Prod.fst) it.id)
          (it.id, it.vector)
        meta := dictInsert it.id it.metadata idx.meta } := by
  simp [upsertNumpy, npWrite, npPending, npMetaWrite, hmem]

end Leve

namespace Leve

/-- C9 counterexample: an index reachable by a single valid `upsert` (a batch
whose two items share id `"x"`) stores two rows for `"x"`; upserting a valid
item with id `"x"` then overwrites only the dict position (the last row), so
the first row keeps the old vector `[1, 0]` — the upsert did not replace that
id's stored vector, contradicting the claim as stated. -/
theorem vectorIndex_upsert_counterexample :
    (upsertNumpy (upsertNumpy ⟨2, [], []⟩ [⟨"x", [1, 0], []⟩, ⟨"x", [0, 1], []⟩])
        [⟨"x", [1, 1], []⟩]).entries = [("x", [1, 0]), ("x", [1, 1])] ∧
    (([1, 0] : List ℚ) ≠ [1, 1]) := by
  decide

/-- C9 amended: `upsert` of valid items succeeds with the `_upsert_numpy`
state; upserting the same batch twice yields the same `size()` and the same
search results as once (the row block is provably identical and the metadata
dict lookup-equal); and upserting an item whose id is already stored never
changes `size()`, while it replaces that id's vector and metadata provided
the stored ids are pairwise distinct (as in any index built from batches
without duplicated ids — see the counterexample otherwise). -/
theorem vectorIndex_upsert_idempotent (idx : NpIndex) (items : List VectorItem)
    (hvalid : ∀ it ∈ items, it.vector.length = idx.dim) :
    upsert idx items = .ok (upsertNumpy idx items, sizeNp (upsertNumpy idx items)) ∧
    sizeNp (upsertNumpy (upsertNumpy idx items) items) = sizeNp (upsertNumpy idx items) ∧
    (∀ (q : List ℚ) (k : Nat) (filters : List (String × FilterVal)),
      searchNumpy (upsertNumpy (upsertNumpy idx items) items) q k filters =
        searchNumpy (upsertNumpy idx items) q k filters) ∧
    (∀ it : VectorItem, it.id ∈ idx.entries.map Prod.fst →
      sizeNp (upsertNumpy idx [it]) = sizeNp idx) ∧
    ((idx.entries.map Prod.fst).Nodup →
      ∀ it : VectorItem, it.id ∈ idx.entries.map Prod.fst →
        assocFind it.id (upsertNumpy idx [it]).entries = some it.vector ∧
        assocFind it.id (upsertNumpy idx [it]).meta = some it.metadata) := by
  refine ⟨?_, ?_, ?_, ?_, ?_⟩
  · by_cases hi : items.isEmpty
    · have hnil : items = [] := List.isEmpty_iff.mp hi
      subst hnil
      unfold upsert
      rw [if_pos hi, upsertNumpy_nil]
    · have hall : items.all (fun it => decide (it.vector.length = idx.dim)) = true :=
        List.all_eq_true.mpr (fun it hit => decide_eq_true (hvalid it hit))
      unfold upsert
      rw [if_neg hi, if_pos hall]
  · exact congrArg List.length (upsertNumpy_entries_idem idx items)
  · intro q k filters
    exact searchNumpy_congr (upsertNumpy_entries_idem idx items)
      (assocFind_upsertNumpy_meta_idem idx items) q k filters
  · intro it hmem
    rw [npWrite_single idx it hmem]
    simp [sizeNp, List.length_set]
  · intro hnd it hmem
    rw [npWrite_single idx it hmem]
    constructor
    · have hp := getElem?_lastIdxOf hmem
      rw [List.getElem?_map] at hp
      cases he : idx.entries[lastIdxOf (idx.entries.map Prod.fst) it.id]? with
      | none =>
        rw [he] at hp
        cases hp
      | some pair =>
        rw [he] at hp
        have hfst : pair.1 = it.id := by simpa using hp
        have hq : idx.entries[lastIdxOf (idx.entries.map Prod.fst) it.id]? =
            some (it.id, pair.2) := by
          rw [he, ← hfst]
        exact assocFind_set hq hnd
    · rw [show (dictInsert it.id it.metadata idx.meta) =
        dictInsert it.id it.metadata idx.meta from rfl, assocFind_dictInsert, if_pos rfl]

/-- Witness for the amended C9 at a concrete one-row index and valid item. -/
theorem vectorIndex_upsert_idempotent_witness :
    upsert ⟨2, [("x", [1, 0])], [("x", [("status", "Published")])]⟩ [⟨"x", [0, 1], []⟩] =
      .ok (upsertNumpy ⟨2, [("x", [1, 0])], [("x", [("status", "Published")])]⟩
            [⟨"x", [0, 1], []⟩],
        sizeNp (upsertNumpy ⟨2, [("x", [1, 0])], [("x", [("status", "Published")])]⟩
            [⟨"x", [0, 1], []⟩])) :=
  (vectorIndex_upsert_idempotent ⟨2, [("x", [1, 0])], [("x", [("status", "Published")])]⟩
    [⟨"x", [0, 1], []⟩] (by decide)).1

end Leve
